import Mathlib

/-!
# wildcard-redirect: the redirect URL computation and the request handler

A shallow embedding of `main.go` (functions `redirectURL` and `redirectHandler`)
together with the parts of the Go standard library they call
(`strings`, `net`, `net/url`, `net/http`, `encoding/json`, `unicode/utf8`),
followed by the properties proved about them.

A Go `string` is a sequence of bytes; it is modelled as `List UInt8`.
-/

set_option maxRecDepth 100000
set_option maxHeartbeats 1000000

namespace WildcardRedirect

/-! ## Go strings -/

/-- A Go `string`: an immutable sequence of bytes. -/
abbrev GoString := List UInt8

/-- The byte of an ASCII character literal, as in Go's `'a'`. -/
def ch (c : Char) : UInt8 := UInt8.ofNat c.toNat

/-- The bytes of an ASCII string literal. -/
def str (s : String) : GoString := s.toList.map ch

/-- Go's `s[lo:hi]` on a string. -/
def slice (s : GoString) (lo hi : Int) : GoString :=
  (s.drop lo.toNat).take (hi.toNat - lo.toNat)

/-- Go's `s[lo:]` on a string. -/
def sliceFrom (s : GoString) (lo : Int) : GoString := s.drop lo.toNat

/-- Go's `<=` on strings: bytewise lexicographic order. -/
def lessEq : GoString → GoString → Bool
  | [], _ => true
  | _ :: _, [] => false
  | a :: s, b :: t => decide (a < b) || (decide (a = b) && lessEq s t)

/-! ## Package `strings` -/

namespace strings

/-- `strings.IndexByte(s, c)`: the index of the first `c` in `s`, or -1. -/
def IndexByte : GoString → UInt8 → Int
  | [], _ => -1
  | b :: s, c =>
    if b = c then 0
    else
      let i := IndexByte s c
      if i < 0 then -1 else i + 1

/-- `strings.LastIndexByte(s, c)`: the index of the last `c` in `s`, or -1. -/
def LastIndexByte : GoString → UInt8 → Int
  | [], _ => -1
  | b :: s, c =>
    let i := LastIndexByte s c
    if 0 ≤ i then i + 1 else if b = c then 0 else -1

/-- `strings.Split(s, sep)` for a separator `sep` of one byte: the substrings
of `s` between the occurrences of `sep`; never empty, `[""]` on the empty
string. -/
def Split : GoString → UInt8 → List GoString
  | [], _ => [[]]
  | b :: s, sep =>
    if b = sep then [] :: Split s sep
    else
      match Split s sep with
      | [] => [[b]]
      | x :: xs => (b :: x) :: xs

/-- `strings.Cut(s, sep)` for a separator of one byte: the text before and
after the first `sep`, and whether `sep` was found; `(s, "", false)` when it
was not. -/
def Cut : GoString → UInt8 → GoString × GoString × Bool
  | [], _ => ([], [], false)
  | b :: s, sep =>
    if b = sep then ([], s, true)
    else ((b :: (Cut s sep).1), (Cut s sep).2.1, (Cut s sep).2.2)

/-- `strings.Count(s, sep)` for a separator of one byte: the number of
occurrences of `sep` in `s`. -/
def Count (s : GoString) (sep : UInt8) : Nat := s.count sep

/-- `strings.Contains(s, sep)` for a separator of one byte. -/
def Contains (s : GoString) (sep : UInt8) : Bool := decide (0 ≤ IndexByte s sep)

/-- `strings.ToLower` on ASCII text (the only text it is applied to here is a
URL scheme, which `getScheme` restricts to ASCII letters, digits, `+-.`). -/
def ToLower (s : GoString) : GoString :=
  s.map (fun c => if ch 'A' ≤ c ∧ c ≤ ch 'Z' then c + 32 else c)

end strings

/-! ## Package `net` -/

namespace net

/-- The `Err` text of the `*net.AddrError` that `SplitHostPort` returns. -/
inductive AddrError where
  | missingPort
  | tooManyColons
  | missingClosingBracket
  | unexpectedOpeningBracket
  | unexpectedClosingBracket
  deriving DecidableEq, Repr

/-- The tail of `net.SplitHostPort`, after `host`, `j` and `k` are set. -/
def splitHostPortTail (hostport host : GoString) (i j k : Int) :
    GoString × GoString × Option AddrError :=
  if strings.IndexByte (sliceFrom hostport j) (ch '[') ≥ 0 then
    ([], [], some .unexpectedOpeningBracket)
  else if strings.IndexByte (sliceFrom hostport k) (ch ']') ≥ 0 then
    ([], [], some .unexpectedClosingBracket)
  else
    (host, sliceFrom hostport (i + 1), none)

/-- `net.SplitHostPort(hostport)`: `(host, port, err)`; on every error the
host and the port returned are empty. -/
def SplitHostPort (hostport : GoString) : GoString × GoString × Option AddrError :=
  -- The port starts after the last colon.
  let i := strings.LastIndexByte hostport (ch ':')
  if i < 0 then ([], [], some .missingPort)
  else if hostport.head? = some (ch '[') then
    -- Expect the first ']' just before the last ':'.
    let end_ := strings.IndexByte hostport (ch ']')
    if end_ < 0 then ([], [], some .missingClosingBracket)
    else if end_ + 1 = hostport.length then ([], [], some .missingPort)
    else if end_ + 1 = i then
      splitHostPortTail hostport (slice hostport 1 end_) i 1 (end_ + 1)
    else if hostport.get? (end_ + 1).toNat = some (ch ':') then
      ([], [], some .tooManyColons)
    else ([], [], some .missingPort)
  else
    let host := slice hostport 0 i
    if strings.IndexByte host (ch ':') ≥ 0 then ([], [], some .tooManyColons)
    else splitHostPortTail hostport host i 0 0

end net

/-! ## Package `net/url`: escaping -/

namespace url

/-- The `encoding` modes of `net/url`. -/
inductive encoding where
  | encodePath
  | encodePathSegment
  | encodeHost
  | encodeZone
  | encodeUserPassword
  | encodeQueryComponent
  | encodeFragment
  deriving DecidableEq, Repr

open encoding

/-- `ishex(c)`. -/
def ishex (c : UInt8) : Bool :=
  if ch '0' ≤ c ∧ c ≤ ch '9' then true
  else if ch 'a' ≤ c ∧ c ≤ ch 'f' then true
  else if ch 'A' ≤ c ∧ c ≤ ch 'F' then true
  else false

/-- `unhex(c)`. -/
def unhex (c : UInt8) : UInt8 :=
  if ch '0' ≤ c ∧ c ≤ ch '9' then c - ch '0'
  else if ch 'a' ≤ c ∧ c ≤ ch 'f' then c - ch 'a' + 10
  else if ch 'A' ≤ c ∧ c ≤ ch 'F' then c - ch 'A' + 10
  else 0

/-- The table `upperhex = "0123456789ABCDEF"`, indexed. -/
def upperhex (i : UInt8) : UInt8 := (str "0123456789ABCDEF").getD i.toNat 0

/-- `shouldEscape(c, mode)`: whether the byte must be percent-escaped when it
appears in the given part of a URL. -/
def shouldEscape (c : UInt8) (mode : encoding) : Bool :=
  -- §2.3 Unreserved characters (alphanum)
  if (ch 'a' ≤ c ∧ c ≤ ch 'z') ∨ (ch 'A' ≤ c ∧ c ≤ ch 'Z') ∨ (ch '0' ≤ c ∧ c ≤ ch '9') then
    false
  else if (mode = encodeHost ∨ mode = encodeZone) ∧
      c ∈ [ch '!', ch '$', ch '&', 39, ch '(', ch ')', ch '*', ch '+', ch ',', ch ';',
        ch '=', ch ':', ch '[', ch ']', ch '<', ch '>', 34] then
    false
  -- §2.3 Unreserved characters (mark)
  else if c ∈ [ch '-', ch '_', ch '.', ch '~'] then false
  -- §2.2 Reserved characters (reserved)
  else if c ∈ [ch '$', ch '&', ch '+', ch ',', ch '/', ch ':', ch ';', ch '=', ch '?', ch '@'] then
    -- Different sections of the URL allow a few of the reserved characters
    -- to appear unescaped.
    match mode with
    | encodePath => decide (c = ch '?')
    | encodePathSegment => decide (c = ch '/' ∨ c = ch ';' ∨ c = ch ',' ∨ c = ch '?')
    | encodeUserPassword => decide (c = ch '@' ∨ c = ch '/' ∨ c = ch '?' ∨ c = ch ':')
    | encodeQueryComponent => true
    | encodeFragment => false
    -- no case of the inner switch: control falls to the end of the function
    | encodeHost => true
    | encodeZone => true
  else if mode = encodeFragment ∧ c ∈ [ch '!', ch '(', ch ')', ch '*'] then false
  -- Everything else must be escaped.
  else true

/-- What `escape` writes for one byte. -/
def escapeByte (c : UInt8) (mode : encoding) : GoString :=
  if c = ch ' ' ∧ mode = encodeQueryComponent then [ch '+']
  else if shouldEscape c mode then [ch '%', upperhex (c >>> 4), upperhex (c &&& 15)]
  else [c]

/-- `escape(s, mode)`: a space becomes `+` in a query component, every other
byte that `shouldEscape` becomes `%XX` in upper-case hexadecimal. -/
def escape (s : GoString) (mode : encoding) : GoString :=
  s.flatMap (fun c => escapeByte c mode)

/-- `unescape(s, mode)`: the inverse of `escape`; `none` stands for the error
returned on a `%` that is not followed by two hexadecimal digits, or on a
byte or an escape that is not allowed in a host. -/
def unescape (mode : encoding) : GoString → Option GoString
  | [] => some []
  | c :: s =>
    if c = ch '%' then
      match s with
      | a :: b :: t =>
        if ¬ (ishex a ∧ ishex b) then none
        else if mode = encodeHost ∧ unhex a < 8 ∧ [c, a, b] ≠ str "%25" then none
        else if mode = encodeZone ∧ [c, a, b] ≠ str "%25" ∧
            (unhex a <<< 4 ||| unhex b) ≠ ch ' ' ∧
            shouldEscape (unhex a <<< 4 ||| unhex b) encodeHost then none
        else (unescape mode t).map (fun r => (unhex a <<< 4 ||| unhex b) :: r)
      | _ => none
    else if c = ch '+' then
      (unescape mode s).map
        (fun r => (if mode = encodeQueryComponent then ch ' ' else ch '+') :: r)
    else if (mode = encodeHost ∨ mode = encodeZone) ∧ c < 128 ∧ shouldEscape c encodeHost then
      none
    else (unescape mode s).map (fun r => c :: r)

/-- `url.QueryEscape(s)`. -/
def QueryEscape (s : GoString) : GoString := escape s encodeQueryComponent

/-- `url.QueryUnescape(s)`. -/
def QueryUnescape (s : GoString) : Option GoString := unescape encodeQueryComponent s

/-! ## Package `net/url`: query values -/

/-- A Go `map[string][]string`, as the list of its entries; the keys of a map
are distinct, and the order of the entries carries no meaning (Go iterates
over a map in no particular order). -/
abbrev Values := List (GoString × List GoString)

/-- The map index expression `m[key]`: the zero value (`nil`) when the key is
absent. -/
def Values.index : Values → GoString → List GoString
  | [], _ => []
  | (k, vs) :: m, key => if k = key then vs else Values.index m key

/-- The map assignment `m[key] = vs`. -/
def Values.assign : Values → GoString → List GoString → Values
  | [], key, vs => [(key, vs)]
  | (k, vs0) :: m, key, vs =>
    if k = key then (key, vs) :: m else (k, vs0) :: Values.assign m key vs

/-- `Values.Set(key, value)`: `v[key] = []string{value}`. -/
def Values.Set (v : Values) (key value : GoString) : Values :=
  v.assign key [value]

/-- The keys of the map, as `for k := range v` collects them. -/
def Values.keys (v : Values) : List GoString := v.map Prod.fst

/-- `slices.Sort(keys)` on strings. -/
def sortStrings (keys : List GoString) : List GoString :=
  keys.insertionSort (fun a b => lessEq a b = true)

/-- The inner loop of `Values.Encode`: the values of one key written to the
buffer, each as `key=value`, with `&` before it when the buffer is not
empty. -/
def encodeKey (keyEscaped : GoString) : GoString → List GoString → GoString
  | buf, [] => buf
  | buf, v :: vs =>
    encodeKey keyEscaped
      ((if buf.length > 0 then buf ++ [ch '&'] else buf) ++ keyEscaped ++ [ch '='] ++
        QueryEscape v) vs

/-- `Values.Encode()`: the "URL encoded" form (`bar=baz&foo=quux`) of the
values, sorted by key. -/
def Values.Encode (v : Values) : GoString :=
  if v.length = 0 then []
  else (sortStrings v.keys).foldl (fun buf k => encodeKey (QueryEscape k) buf (v.index k)) []

/-- One turn of the loop of `parseQuery`, for the text `key` cut off before
the next `&`: a pair with a semicolon, an empty one, or one whose key or
value does not unescape is skipped. -/
def parseQueryPair (m : Values) (key : GoString) : Values :=
  if strings.Contains key (ch ';') then m
  else if key = [] then m
  else
    match QueryUnescape (strings.Cut key (ch '=')).1 with
    | none => m
    | some key1 =>
      match QueryUnescape (strings.Cut key (ch '=')).2.1 with
      | none => m
      | some value => m.assign key1 (m.index key1 ++ [value])

/-- The loop `for query != ""` of `parseQuery`: it cuts the query at each `&`,
that is, it visits the substrings `strings.Split(query, "&")` in order (the
empty ones are skipped either way). -/
def parseQueryLoop (m : Values) (query : GoString) : Values :=
  (strings.Split query (ch '&')).foldl parseQueryPair m

/-- The constant `defaultMaxParams`: the limit on the number of parameters of
a query. -/
def defaultMaxParams : Nat := 10000

/-- `urlParamsWithinMax(params)`, with the setting `urlmaxqueryparams` of
`GODEBUG` left unset. -/
def urlParamsWithinMax (params : Nat) : Bool := decide (params ≤ defaultMaxParams)

/-- `parseQuery(m, query)`: a query of more than `defaultMaxParams` parts,
counted as `strings.Count(query, "&") + 1`, is rejected with an error before
any pair is read, and `m` is left as it is; otherwise the loop runs. The
error is not modelled: `URL.Query` discards it. -/
def parseQuery (m : Values) (query : GoString) : Values :=
  if ! urlParamsWithinMax (strings.Count query (ch '&') + 1) then m
  else parseQueryLoop m query

/-- `url.ParseQuery(query)`, without the error. -/
def ParseQuery (query : GoString) : Values := parseQuery [] query

/-! ## Package `net/url`: the URL type -/

/-- `url.Userinfo`. -/
structure Userinfo where
  username : GoString
  password : GoString
  passwordSet : Bool
  deriving DecidableEq, Repr

/-- `url.URL`; `User` is `none` for the nil pointer. -/
structure URL where
  Scheme : GoString
  Opaque : GoString
  User : Option Userinfo
  Host : GoString
  Path : GoString
  RawPath : GoString
  OmitHost : Bool
  ForceQuery : Bool
  RawQuery : GoString
  Fragment : GoString
  RawFragment : GoString
  deriving DecidableEq, Repr

/-- `URL.Query()`: parses `RawQuery`, silently discarding malformed pairs,
and all pairs when there are too many. -/
def URL.Query (u : URL) : Values := ParseQuery u.RawQuery

end url

/-! ## Package `net/http`: requests -/

namespace http

/-- `http.Header`, a `map[string][]string` with canonical keys. -/
abbrev Header := url.Values

/-- `Header.Get(key)` for a key in canonical form (all the keys this program
asks for are): the first value of the key, or `""`. -/
def Header.Get (h : Header) (key : GoString) : GoString :=
  (url.Values.index h key).headD []

/-- `Header.Set(key, value)` for a key in canonical form. -/
def Header.Set (h : Header) (key value : GoString) : Header :=
  url.Values.assign h key [value]

/-- The fields of `http.Request` that the program reads; `URL` is the value
that the pointer `req.URL` points to. -/
structure Request where
  Method : GoString
  URL : url.URL
  Header : Header
  Host : GoString
  RemoteAddr : GoString
  deriving DecidableEq, Repr

end http

/-! ## `main.go` -/

/-- The type `redirectOptions`. -/
structure redirectOptions where
  TargetHost : GoString
  HostQueryParam : GoString
  AlwaysHTTPS : Bool
  deriving DecidableEq, Repr

/-- The function `redirectURL`: the value of the URL it returns. -/
def redirectURL (req : http.Request) (options : redirectOptions) : url.URL :=
  -- Copy the request URL struct:
  let targetURL := req.URL
  -- Remove any existing user:password authentication:
  let targetURL := { targetURL with User := none }
  let targetURL :=
    if options.AlwaysHTTPS then { targetURL with Scheme := str "https" }
    else { targetURL with Scheme := str "http" }
  if req.Host.length ≠ 0 ∧ options.TargetHost.length ≠ 0 then
    let targetURL :=
      if options.HostQueryParam ≠ [] then
        let query := targetURL.Query
        let query := query.Set options.HostQueryParam req.Host
        { targetURL with RawQuery := query.Encode }
      else targetURL
    let part := (strings.Split req.Host (ch '.')).headD []
    let part :=
      if strings.IndexByte part (ch ':') ≥ 0 then (net.SplitHostPort part).1 else part
    { targetURL with Host := part ++ str "." ++ options.TargetHost }
  else
    { targetURL with Host := req.Host }

/-! ## `redirectURL` on the store

The same function with the `url.URL` values held in a store, a pointer being
an index into it, so that the writes through `targetURL` are explicit. -/

/-- The allocated `url.URL` values; a `*url.URL` is an index into the list. -/
abbrev Store := List url.URL

/-- The zero value of `url.URL`, as `new(url.URL)` allocates it. -/
def zeroURL : url.URL :=
  { Scheme := [], Opaque := [], User := none, Host := [], Path := [], RawPath := [],
    OmitHost := false, ForceQuery := false, RawQuery := [], Fragment := [], RawFragment := [] }

/-- An assignment through the pointer `p`: the value at `p` becomes `f` of
it. -/
def Store.write : Store → Nat → (url.URL → url.URL) → Store
  | [], _, _ => []
  | u :: s, 0, f => f u :: s
  | u :: s, p + 1, f => u :: Store.write s p f

/-- The value that the pointer `p` points to (the zero value stands in for a
pointer that was never allocated). -/
def Store.read (s : Store) (p : Nat) : url.URL := s.getD p zeroURL

/-- The function `redirectURL`, statement by statement, on the store: `reqURL`
is the pointer `req.URL` and `reqHost` is `req.Host`; the result is the store
after the call and the pointer returned, or `none` when `req.URL` is not
allocated (a nil pointer dereference). -/
def redirectURLStore (store : Store) (reqURL : Nat) (reqHost : GoString)
    (options : redirectOptions) : Option (Store × Nat) :=
  if reqURL < store.length then
    -- targetURL := new(url.URL)
    let targetURL := store.length
    let store := store ++ [zeroURL]
    -- *targetURL = *req.URL
    let store := store.write targetURL (fun _ => store.read reqURL)
    -- targetURL.User = nil
    let store := store.write targetURL (fun t => { t with User := none })
    let store :=
      if options.AlwaysHTTPS then store.write targetURL (fun t => { t with Scheme := str "https" })
      else store.write targetURL (fun t => { t with Scheme := str "http" })
    let store :=
      if reqHost.length ≠ 0 ∧ options.TargetHost.length ≠ 0 then
        let store :=
          if options.HostQueryParam ≠ [] then
            let query := (store.read targetURL).Query
            let query := query.Set options.HostQueryParam reqHost
            store.write targetURL (fun t => { t with RawQuery := query.Encode })
          else store
        let part := (strings.Split reqHost (ch '.')).headD []
        let part :=
          if strings.IndexByte part (ch ':') ≥ 0 then (net.SplitHostPort part).1 else part
        store.write targetURL (fun t => { t with Host := part ++ str "." ++ options.TargetHost })
      else
        store.write targetURL (fun t => { t with Host := reqHost })
    some (store, targetURL)
  else none

/-! ## Package `net/url`: the string form of a URL, and parsing -/

namespace url

open encoding

/-- `Userinfo.String()` on a non-nil receiver. -/
def Userinfo.String (u : Userinfo) : GoString :=
  let s := escape u.username encodeUserPassword
  if u.passwordSet then s ++ [ch ':'] ++ escape u.password encodeUserPassword else s

/-- `validEncoded(s, mode)`. -/
def validEncoded (s : GoString) (mode : encoding) : Bool :=
  s.all (fun c =>
    if c ∈ [ch '!', ch '$', ch '&', 39, ch '(', ch ')', ch '*', ch '+', ch ',', ch ';',
        ch '=', ch ':', ch '@'] then true
    else if c ∈ [ch '[', ch ']'] then true
    else if c = ch '%' then true
    else ! shouldEscape c mode)

/-- `URL.EscapedPath()`. -/
def URL.EscapedPath (u : URL) : GoString :=
  if u.RawPath ≠ [] ∧ validEncoded u.RawPath encodePath ∧
      unescape encodePath u.RawPath = some u.Path then u.RawPath
  else if u.Path = str "*" then str "*"
  else escape u.Path encodePath

/-- `URL.EscapedFragment()`. -/
def URL.EscapedFragment (u : URL) : GoString :=
  if u.RawFragment ≠ [] ∧ validEncoded u.RawFragment encodeFragment ∧
      unescape encodeFragment u.RawFragment = some u.Fragment then u.RawFragment
  else escape u.Fragment encodeFragment

/-- The part of `URL.String()` that writes the authority: `//`, the user
information and the host. -/
def URL.writeAuthority (u : URL) (buf : GoString) : GoString :=
  if u.Scheme ≠ [] ∨ u.Host ≠ [] ∨ u.User ≠ none then
    if u.OmitHost ∧ u.Host = [] ∧ u.User = none then buf
    else
      let buf := if u.Host ≠ [] ∨ u.Path ≠ [] ∨ u.User ≠ none then buf ++ str "//" else buf
      let buf :=
        match u.User with
        | some ui => buf ++ ui.String ++ [ch '@']
        | none => buf
      if u.Host ≠ [] then buf ++ escape u.Host encodeHost else buf
  else buf

/-- The part of `URL.String()` that writes the path. When the host is omitted
and the path begins with `//`, the first `/` is written as `%2F`, so that the
text is not read back as an authority. -/
def URL.writePath (u : URL) (buf : GoString) : GoString :=
  let path := u.EscapedPath
  let slash : Bool :=
    decide (u.OmitHost = true ∧ u.Host = [] ∧ u.User = none) && (str "//").isPrefixOf path
  let buf := if slash then buf ++ str "%2F" else buf
  let path := if slash then path.drop 1 else path
  let buf :=
    if path ≠ [] ∧ path.head? ≠ some (ch '/') ∧ u.Host ≠ [] then buf ++ [ch '/'] else buf
  let buf :=
    if buf.length = 0 ∧ strings.Contains (strings.Cut path (ch '/')).1 (ch ':') then
      buf ++ str "./"
    else buf
  buf ++ path

/-- `URL.String()`: `scheme:opaque?query#fragment` or
`scheme://userinfo@host/path?query#fragment`. -/
def URL.String (u : URL) : GoString :=
  let buf : GoString := if u.Scheme ≠ [] then u.Scheme ++ [ch ':'] else []
  let buf := if u.Opaque ≠ [] then buf ++ u.Opaque else u.writePath (u.writeAuthority buf)
  let buf := if u.ForceQuery ∨ u.RawQuery ≠ [] then buf ++ [ch '?'] ++ u.RawQuery else buf
  if u.Fragment ≠ [] then buf ++ [ch '#'] ++ u.EscapedFragment else buf

/-- `URL.RequestURI()`. -/
def URL.RequestURI (u : URL) : GoString :=
  let result :=
    if u.Opaque = [] then (if u.EscapedPath = [] then str "/" else u.EscapedPath)
    else if (str "//").isPrefixOf u.Opaque then u.Scheme ++ str ":" ++ u.Opaque
    else u.Opaque
  if u.ForceQuery ∨ u.RawQuery ≠ [] then result ++ str "?" ++ u.RawQuery else result

/-- `stringContainsCTLByte(s)`. -/
def stringContainsCTLByte (s : GoString) : Bool :=
  s.any (fun b => decide (b < ch ' ') || decide (b = 127))

/-- The loop of `getScheme` at index `i`, with `rest = rawURL[i:]`. `none` is
the error "missing protocol scheme". -/
def getSchemeLoop (rawURL : GoString) : Nat → GoString → Option (GoString × GoString)
  | _, [] => some ([], rawURL)
  | i, c :: rest =>
    if (ch 'a' ≤ c ∧ c ≤ ch 'z') ∨ (ch 'A' ≤ c ∧ c ≤ ch 'Z') then
      getSchemeLoop rawURL (i + 1) rest
    else if (ch '0' ≤ c ∧ c ≤ ch '9') ∨ c = ch '+' ∨ c = ch '-' ∨ c = ch '.' then
      if i = 0 then some ([], rawURL) else getSchemeLoop rawURL (i + 1) rest
    else if c = ch ':' then
      if i = 0 then none else some (rawURL.take i, rawURL.drop (i + 1))
    else
      -- an invalid character: there is no valid scheme
      some ([], rawURL)

/-- `getScheme(rawURL)`: `(scheme, path)`. -/
def getScheme (rawURL : GoString) : Option (GoString × GoString) :=
  getSchemeLoop rawURL 0 rawURL

/-- `URL.setFragment(f)`. -/
def URL.setFragment (u : URL) (f : GoString) : Option URL :=
  match unescape encodeFragment f with
  | none => none
  | some frag =>
    some { u with
      Fragment := frag
      RawFragment := if f = escape frag encodeFragment then [] else f }

/-- `parse(rawURL, false)`. The function is modelled up to the point where
the scheme is split off and stored; what follows in it (query, authority and
path) is the parameter `parseRest`, applied to the scheme and the rest of the
text: it fills the other fields of the URL, or fails, and leaves `Scheme` as
it is. -/
def parse (parseRest : GoString → GoString → Option URL) (rawURL : GoString) : Option URL :=
  if stringContainsCTLByte rawURL then none
  else if rawURL = str "*" then
    some { Scheme := [], Opaque := [], User := none, Host := [], Path := str "*", RawPath := [],
           OmitHost := false, ForceQuery := false, RawQuery := [], Fragment := [],
           RawFragment := [] }
  else
    match getScheme rawURL with
    | none => none
    | some (scheme, rest) =>
      match parseRest (strings.ToLower scheme) rest with
      | none => none
      | some u => some { u with Scheme := strings.ToLower scheme }

/-- `url.Parse(rawURL)`; `none` for an error. -/
def Parse (parseRest : GoString → GoString → Option URL) (rawURL : GoString) : Option URL :=
  -- Cut off #frag
  match parse parseRest (strings.Cut rawURL (ch '#')).1 with
  | none => none
  | some u =>
    if (strings.Cut rawURL (ch '#')).2.1 = [] then some u
    else u.setFragment (strings.Cut rawURL (ch '#')).2.1

end url

/-! ## Package `net/http`: the redirect reply -/

namespace http

/-- The state of the `http.ResponseWriter` that the handler writes to: its
header map, whether the status line was written, the status code and the
body. -/
structure ResponseWriter where
  Header : Header
  wroteHeader : Bool
  Code : Int
  Body : GoString
  deriving DecidableEq, Repr

/-- `ResponseWriter.WriteHeader(code)`: the first call fixes the status. -/
def ResponseWriter.WriteHeader (w : ResponseWriter) (code : Int) : ResponseWriter :=
  if w.wroteHeader then w else { w with wroteHeader := true, Code := code }

/-- `ResponseWriter.Write(data)`: writes the status 200 first when no status
was written. -/
def ResponseWriter.Write (w : ResponseWriter) (data : GoString) : ResponseWriter :=
  let w := w.WriteHeader 200
  { w with Body := w.Body ++ data }

/-- The constant `http.StatusFound`. -/
def StatusFound : Int := 302

/-- `http.StatusText(code)` for the redirect codes. -/
def StatusText (code : Int) : GoString :=
  if code = 301 then str "Moved Permanently"
  else if code = 302 then str "Found"
  else if code = 303 then str "See Other"
  else if code = 307 then str "Temporary Redirect"
  else if code = 308 then str "Permanent Redirect"
  else []

/-- The table `"0123456789abcdef"` of `strconv`, indexed. -/
def lowerhex (i : UInt8) : UInt8 := (str "0123456789abcdef").getD i.toNat 0

/-- `hexEscapeNonASCII(s)`: every byte from `utf8.RuneSelf` (0x80) on becomes
`%` and the byte in hexadecimal as `strconv.AppendInt(b, c, 16)` writes it
(lower case, two digits for these values). -/
def hexEscapeNonASCII (s : GoString) : GoString :=
  s.flatMap (fun c => if c ≥ 128 then [ch '%', lowerhex (c >>> 4), lowerhex (c &&& 15)] else [c])

/-- `htmlEscape(s)`: the replacer for `&`, `<`, `>`, `"` and the apostrophe. -/
def htmlEscape (s : GoString) : GoString :=
  s.flatMap (fun c =>
    if c = ch '&' then str "&amp;"
    else if c = ch '<' then str "&lt;"
    else if c = ch '>' then str "&gt;"
    else if c = 34 then str "&#34;"
    else if c = 39 then str "&#39;"
    else [c])

/-- `http.Redirect(w, r, url, code)`, with `target` for `url`. `parseRest` stands for the part of
`url.Parse` that is not modelled (see `url.parse`), `makeAbsolute oldpath url`
for the rewriting of a relative target (one that parses with neither scheme nor
host) against the request path, with `path.Split` and `path.Clean`. -/
def Redirect (parseRest : GoString → GoString → Option url.URL)
    (makeAbsolute : GoString → GoString → GoString)
    (w : ResponseWriter) (r : Request) (target : GoString) (code : Int) : ResponseWriter :=
  let target :=
    match url.Parse parseRest target with
    | some u =>
      -- If url was relative, make its path absolute by combining with request path.
      if u.Scheme = [] ∧ u.Host = [] then
        makeAbsolute (if r.URL.Path = [] then str "/" else r.URL.Path) target
      else target
    | none => target
  let h := w.Header
  let hadCT := (h.map Prod.fst).contains (str "Content-Type")
  let h := h.Set (str "Location") (hexEscapeNonASCII target)
  let h :=
    if ! hadCT ∧ (r.Method = str "GET" ∨ r.Method = str "HEAD") then
      h.Set (str "Content-Type") (str "text/html; charset=utf-8")
    else h
  let w := { w with Header := h }
  let w := w.WriteHeader code
  -- Shouldn't send the body for POST or HEAD; that leaves GET.
  if ! hadCT ∧ r.Method = str "GET" then
    w.Write (str "<a href=" ++ [34] ++ htmlEscape target ++ [34] ++ str ">" ++ StatusText code ++
      str "</a>." ++ [10] ++ [10])
  else w

end http

/-! ## Package `unicode/utf8` -/

namespace utf8

/-- The table `first`: information about the first byte of an encoding. The
value is `as` (240) for ASCII, `xx` (241) for a byte that starts no encoding,
and otherwise holds the size in its low bits and the index into
`acceptRanges` in its high bits (`s1` to `s7`). -/
def first (b : UInt8) : UInt8 :=
  if b < 128 then 240
  else if b < 194 then 241
  else if b < 224 then 2
  else if b = 224 then 19
  else if b < 237 then 3
  else if b = 237 then 35
  else if b < 240 then 3
  else if b = 240 then 52
  else if b < 244 then 4
  else if b = 244 then 68
  else 241

end utf8

/-! ## Package `encoding/json`: strings -/

namespace json

end json

/-! ## `main.go`: the handler -/

/-- A `time.Time`, as an instant. -/
abbrev Time := Nat

/-- The type `logEntry`. -/
structure logEntry where
  Time : Time
  RemoteIP : GoString
  Method : GoString
  Host : GoString
  RequestURI : GoString
  Referrer : GoString
  UserAgent : GoString
  ForwardedFor : GoString
  ForwardedProto : GoString
  deriving DecidableEq, Repr

/-- The method `Log`. The standard output is kept as the list of the entries
on which `Log` was called, in the order of the calls. The bytes that a call
writes, `json.Marshal` of the entry and a newline, are `logEntry.LogText`,
and the bytes of the whole output are `stdoutText`: the encoding loses
information, so the entries are kept beside it. -/
def logEntry.Log (req : logEntry) (stdout : List logEntry) : List logEntry :=
  stdout ++ [req]

/-- The package variables `targetHost`, `hostQueryParam` and `alwaysHTTPS`
(`listenAddress` is not read by the handler). -/
structure Globals where
  targetHost : GoString
  hostQueryParam : GoString
  alwaysHTTPS : Bool
  deriving DecidableEq, Repr

/-- The function `redirectHandler`. `now` is the value of `time.Now()` when
the entry is built, `stdout` the standard output so far (the entries logged,
whose bytes are `stdoutText`) and `resp` the response writer; the result is
the response writer and the standard output after the call. `parseRest` and
`makeAbsolute` are the parameters of `http.Redirect`. -/
def redirectHandler (parseRest : GoString → GoString → Option url.URL)
    (makeAbsolute : GoString → GoString → GoString)
    (g : Globals) (now : Time) (stdout : List logEntry)
    (resp : http.ResponseWriter) (req : http.Request) :
    http.ResponseWriter × List logEntry :=
  let ip := (net.SplitHostPort req.RemoteAddr).1
  let forwardedProto := req.Header.Get (str "X-Forwarded-Proto")
  let entry : logEntry :=
    { Time := now
      RemoteIP := ip
      Method := req.Method
      Host := req.Host
      RequestURI := req.URL.RequestURI
      Referrer := req.Header.Get (str "Referer")
      UserAgent := req.Header.Get (str "User-Agent")
      ForwardedFor := req.Header.Get (str "X-Forwarded-For")
      ForwardedProto := forwardedProto }
  let options : redirectOptions :=
    { TargetHost := g.targetHost
      HostQueryParam := g.hostQueryParam
      AlwaysHTTPS := g.alwaysHTTPS || decide (forwardedProto = str "https") }
  let resp :=
    http.Redirect parseRest makeAbsolute resp req (redirectURL req options).String
      http.StatusFound
  -- defer entry.Log()
  (resp, entry.Log stdout)

/-! ## The specification's words, and the requests of the tests -/

/-- The first label of a host as the specification words it: the substring
before the first `.`, or the whole host when it contains no `.`. -/
def specFirstLabel (host : GoString) : GoString :=
  host.takeWhile (fun c => decide (c ≠ ch '.'))

/-- The leaf of a host as the specification words it: the first label, with
a trailing `:port` (everything from the last `:` on) removed when the label
contains `:`. -/
def specLeaf (host : GoString) : GoString :=
  if ch ':' ∈ specFirstLabel host then
    (specFirstLabel host).take (strings.LastIndexByte (specFirstLabel host) (ch ':')).toNat
  else specFirstLabel host

/-- The parameters that a query string decodes to: what the loop of
`url.ParseQuery` reads, the limit on the number of parameters left aside. -/
def decodeQuery (query : GoString) : url.Values := url.parseQueryLoop [] query

/-- One `&`-separated part of a raw query string read as a parameter: the
texts before and after its first `=`, unescaped, as key and value; `none`
for a part that is no well-formed parameter: the empty part, a part with a
`;`, a part whose key or value is not a valid percent-encoding. -/
def specParam (part : GoString) : Option (GoString × GoString) :=
  if part = [] ∨ ch ';' ∈ part then none
  else
    match url.QueryUnescape (strings.Cut part (ch '=')).1,
      url.QueryUnescape (strings.Cut part (ch '=')).2.1 with
    | some key, some value => some (key, value)
    | _, _ => none

/-- The well-formed parameters of a raw query string, in the order in which
they stand in it. -/
def specParams (query : GoString) : List (GoString × GoString) :=
  (strings.Split query (ch '&')).filterMap specParam

/-- The request that `httptest.NewRequest("GET", target, nil)` builds for the
absolute target `http://host` + `path` + `?rawQuery` (the tests' requests),
with the headers given. -/
def newRequest (host path rawQuery : GoString) (header : http.Header) : http.Request :=
  { Method := str "GET"
    URL := { zeroURL with Scheme := str "http", Host := host, Path := path, RawQuery := rawQuery }
    Header := header
    Host := host
    RemoteAddr := str "192.0.2.1:1234" }

/-- The request that `httptest.NewRequest("GET", target, nil)` builds for a
target `path` + `?rawQuery` without scheme and host: the URL has neither, and
the Host is the default `example.com`. -/
def newRequestPath (path rawQuery : GoString) (header : http.Header) : http.Request :=
  { Method := str "GET"
    URL := { zeroURL with Path := path, RawQuery := rawQuery }
    Header := header
    Host := str "example.com"
    RemoteAddr := str "192.0.2.1:1234" }

/-- The response writer of `httptest.NewRecorder()`: no header, no status
written yet (the code 200 is its default), an empty body. -/
def newRecorder : http.ResponseWriter :=
  { Header := [], wroteHeader := false, Code := 200, Body := [] }

namespace url

/-! ## The query string as a list of pairs

Auxiliary definitions for the proofs about `Values.Encode` and `ParseQuery`:
the `key=value` pairs in the order in which `Encode` writes them. -/

/-- The pairs `(key, value)` of the map `v`, key by key for the keys `ks`. -/
def queryPairs (v : Values) (ks : List GoString) : List (GoString × GoString) :=
  ks.flatMap (fun k => (v.index k).map (fun x => (k, x)))

/-- What `Values.Encode` appends to its buffer for one pair. -/
def encodePair (buf : GoString) (p : GoString × GoString) : GoString :=
  (if buf.length > 0 then buf ++ [ch '&'] else buf) ++ QueryEscape p.1 ++ [ch '='] ++
    QueryEscape p.2

/-- The text `key=value` of one pair, escaped. -/
def pairText (p : GoString × GoString) : GoString :=
  QueryEscape p.1 ++ ch '=' :: QueryEscape p.2

/-- What `parseQuery` does with one well-formed pair:
`m[key] = append(m[key], value)`. -/
def addPair (m : Values) (p : GoString × GoString) : Values :=
  m.assign p.1 (m.index p.1 ++ [p.2])

end url

/-! ## The handler and the clock -/

/-- The handler with the clock made explicit. `start` is what `time.Now()`
returns where the source calls it, in the composite literal that builds
`entry`, before `http.Redirect`; `emission` is the clock when the deferred
`entry.Log()` runs, after `http.Redirect` has returned. The standard output
is the list of the entries written, each with the time at which it was
written. -/
def redirectHandlerTimed (parseRest : GoString → GoString → Option url.URL)
    (makeAbsolute : GoString → GoString → GoString)
    (g : Globals) (start emission : Time) (stdout : List (Time × logEntry))
    (resp : http.ResponseWriter) (req : http.Request) :
    http.ResponseWriter × List (Time × logEntry) :=
  ((redirectHandler parseRest makeAbsolute g start [] resp req).1,
    stdout ++ (redirectHandler parseRest makeAbsolute g start [] resp req).2.map
      (fun e => (emission, e)))

/-! # Theorems -/

open url url.encoding

/-! ## Lemmas on `strings` -/

theorem IndexByte_ge_neg_one (s : GoString) (c : UInt8) : -1 ≤ strings.IndexByte s c := by
  induction s with
  | nil => simp [strings.IndexByte]
  | cons b s ih =>
    simp only [strings.IndexByte]
    split
    · omega
    · split <;> omega

theorem IndexByte_nonneg_iff (s : GoString) (c : UInt8) : 0 ≤ strings.IndexByte s c ↔ c ∈ s := by
  induction s with
  | nil => simp [strings.IndexByte]
  | cons b s ih =>
    simp only [strings.IndexByte, List.mem_cons]
    by_cases h : b = c
    · simp [h]
    · have hcb : ¬ c = b := fun e => h e.symm
      simp only [h, if_false, hcb, false_or]
      rw [← ih]
      split <;> omega

theorem IndexByte_neg_iff (s : GoString) (c : UInt8) : strings.IndexByte s c < 0 ↔ c ∉ s := by
  rw [← IndexByte_nonneg_iff]; omega

theorem LastIndexByte_nonneg_iff (s : GoString) (c : UInt8) :
    0 ≤ strings.LastIndexByte s c ↔ c ∈ s := by
  induction s with
  | nil => simp [strings.LastIndexByte]
  | cons b s ih =>
    simp only [strings.LastIndexByte, List.mem_cons]
    by_cases h : 0 ≤ strings.LastIndexByte s c
    · have hm := ih.mp h
      simp only [h, if_true, hm, or_true, iff_true]
      omega
    · have hm : c ∉ s := fun hm => h (ih.mpr hm)
      simp only [h, if_false, hm, or_false]
      by_cases hb : b = c
      · simp [hb]
      · have hcb : ¬ c = b := fun e => hb e.symm
        simp [hb, hcb]

theorem LastIndexByte_append_sep (a b : GoString) (c : UInt8) (hb : c ∉ b) :
    strings.LastIndexByte (a ++ c :: b) c = a.length := by
  induction a with
  | nil =>
    have h : ¬ 0 ≤ strings.LastIndexByte b c := fun h => hb ((LastIndexByte_nonneg_iff b c).mp h)
    simp [strings.LastIndexByte, h]
  | cons x a ih =>
    simp only [List.cons_append, strings.LastIndexByte, ih, List.length_cons]
    simp
    omega

theorem Split_ne_nil (s : GoString) (sep : UInt8) : strings.Split s sep ≠ [] := by
  induction s with
  | nil => simp [strings.Split]
  | cons b s ih =>
    simp only [strings.Split]
    split
    · simp
    · split <;> simp

theorem Split_of_not_mem (s : GoString) (sep : UInt8) (h : sep ∉ s) :
    strings.Split s sep = [s] := by
  induction s with
  | nil => simp [strings.Split]
  | cons b s ih =>
    simp only [List.mem_cons, not_or] at h
    have hb : ¬ b = sep := fun e => h.1 e.symm
    simp [strings.Split, hb, ih h.2]

theorem Split_append_sep (a rest : GoString) (sep : UInt8) (h : sep ∉ a) :
    strings.Split (a ++ sep :: rest) sep = a :: strings.Split rest sep := by
  induction a with
  | nil => simp [strings.Split]
  | cons b a ih =>
    simp only [List.mem_cons, not_or] at h
    have hb : ¬ b = sep := fun e => h.1 e.symm
    simp [strings.Split, hb, ih h.2]

theorem Split_head (s : GoString) (sep : UInt8) :
    (strings.Split s sep).headD [] = s.takeWhile (fun c => decide (c ≠ sep)) := by
  induction s with
  | nil => simp [strings.Split]
  | cons b s ih =>
    simp only [strings.Split]
    by_cases hb : b = sep
    · simp [hb]
    · simp only [hb, if_false]
      have := Split_ne_nil s sep
      cases hs : strings.Split s sep with
      | nil => exact absurd hs this
      | cons x xs =>
        rw [hs] at ih
        simp at ih
        simp [List.takeWhile, hb, ih]

theorem SplitHostPort_host_port (a b : GoString) (ha : ch ':' ∉ a) (hb : ch ':' ∉ b)
    (ho : ch '[' ∉ a ++ ch ':' :: b) (hc : ch ']' ∉ a ++ ch ':' :: b) :
    net.SplitHostPort (a ++ ch ':' :: b) = (a, b, none) := by
  have hi : strings.LastIndexByte (a ++ ch ':' :: b) (ch ':') = a.length :=
    LastIndexByte_append_sep a b (ch ':') hb
  have hhead : (a ++ ch ':' :: b).head? ≠ some (ch '[') := by
    intro h
    exact ho (List.mem_of_mem_head? h)
  have hslice : slice (a ++ ch ':' :: b) 0 (a.length : Int) = a := by
    simp [slice]
  have h1 : ¬ strings.IndexByte a (ch ':') ≥ 0 := by
    intro h; exact ha ((IndexByte_nonneg_iff a _).mp h)
  have h2 : ¬ strings.IndexByte (a ++ ch ':' :: b) (ch '[') ≥ 0 := by
    intro h; exact ho ((IndexByte_nonneg_iff _ _).mp h)
  have h3 : ¬ strings.IndexByte (a ++ ch ':' :: b) (ch ']') ≥ 0 := by
    intro h; exact hc ((IndexByte_nonneg_iff _ _).mp h)
  have hn : ¬ ((a.length : Int) < 0) := by omega
  have hdrop : sliceFrom (a ++ ch ':' :: b) ((a.length : Int) + 1) = b := by
    have : ((a.length : Int) + 1).toNat = a.length + 1 := by omega
    simp [sliceFrom, this]
  simp only [net.SplitHostPort, hi, hn, if_false, hhead, hslice, h1, net.splitHostPortTail]
  have hd0 : sliceFrom (a ++ ch ':' :: b) 0 = a ++ ch ':' :: b := by simp [sliceFrom]
  simp only [hd0, h2, h3, if_false, hdrop]

theorem exists_split_of_count_le_one (s : GoString) (c : UInt8) (hm : c ∈ s)
    (h : s.count c ≤ 1) : ∃ a b, s = a ++ c :: b ∧ c ∉ a ∧ c ∉ b := by
  obtain ⟨a, b, rfl⟩ := List.append_of_mem hm
  refine ⟨a, b, rfl, ?_, ?_⟩
  · intro ha
    have := List.count_pos_iff.mpr ha
    simp [List.count_append, List.count_cons] at h
    omega
  · intro hb
    have := List.count_pos_iff.mpr hb
    simp [List.count_append, List.count_cons] at h
    omega

/-- The label that `redirectURL` puts in front of the target host. -/
theorem redirectURL_host_eq (req : http.Request) (options : redirectOptions)
    (hH : req.Host ≠ []) (hT : options.TargetHost ≠ []) :
    (redirectURL req options).Host =
      (if strings.IndexByte (specFirstLabel req.Host) (ch ':') ≥ 0
        then (net.SplitHostPort (specFirstLabel req.Host)).1 else specFirstLabel req.Host)
        ++ str "." ++ options.TargetHost := by
  have h1 : req.Host.length ≠ 0 := by simpa using hH
  have h2 : options.TargetHost.length ≠ 0 := by simpa using hT
  simp only [redirectURL, h1, h2, ne_eq, not_false_eq_true, and_self, if_true, Split_head,
    specFirstLabel]

/-! ## The output host -/

/-- C2: when targetHost is empty or the request Host is empty, the output
host is the request Host and the raw query is the request's raw query,
whatever hostQueryParam is. -/
theorem redirectURL_no_rewrite (req : http.Request) (options : redirectOptions)
    (h : options.TargetHost = [] ∨ req.Host = []) :
    (redirectURL req options).Host = req.Host ∧
    (redirectURL req options).RawQuery = req.URL.RawQuery := by
  have hc : ¬ (req.Host.length ≠ 0 ∧ options.TargetHost.length ≠ 0) := by
    rcases h with h | h <;> simp [h]
  simp only [redirectURL, hc, if_false]
  split <;> simp

/-- C2, witness: Host `example.com`, path `/path`, AlwaysHTTPS and no
targetHost give `https://example.com/path`. -/
theorem redirectURL_no_rewrite_witness :
    (redirectURL (newRequestPath (str "/path") [] []) ⟨[], str "via", true⟩).Host =
      str "example.com" ∧
    (redirectURL (newRequestPath (str "/path") [] []) ⟨[], str "via", true⟩).RawQuery = [] ∧
    (redirectURL (newRequestPath (str "/path") [] []) ⟨[], str "via", true⟩).String =
      str "https://example.com/path" :=
  ⟨(redirectURL_no_rewrite _ _ (Or.inl rfl)).1, (redirectURL_no_rewrite _ _ (Or.inl rfl)).2,
    by decide⟩

/-- The scheme of the output is one of the two constants. -/
theorem redirectURL_scheme_eq (req : http.Request) (options : redirectOptions) :
    (redirectURL req options).Scheme =
      if options.AlwaysHTTPS = true then str "https" else str "http" := by
  simp only [redirectURL]
  split <;> split <;> (try split) <;> simp_all

/-- C3: the output scheme is `https` when `AlwaysHTTPS` is set and `http`
when it is not, whatever the scheme of the request URL. -/
theorem redirectURL_scheme (req : http.Request) (options : redirectOptions) :
    (redirectURL req options).Scheme =
      if options.AlwaysHTTPS = true then str "https" else str "http" :=
  redirectURL_scheme_eq req options

/-- C7: for a Host `label.rest` whose label holds neither `.` nor `:`, and a
non-empty targetHost, the output host is `label.targetHost`; the other
labels and the port of the Host are dropped and targetHost is kept as it is,
with its port. -/
theorem redirectURL_host_first_label (label rest : GoString) (req : http.Request)
    (options : redirectOptions) (hHost : req.Host = label ++ ch '.' :: rest)
    (hdot : ch '.' ∉ label) (hcolon : ch ':' ∉ label) (hT : options.TargetHost ≠ []) :
    (redirectURL req options).Host = label ++ str "." ++ options.TargetHost := by
  have hH : req.Host ≠ [] := by simp [hHost]
  have hfirst : specFirstLabel req.Host = label := by
    rw [specFirstLabel, ← Split_head, hHost, Split_append_sep label rest _ hdot]
    rfl
  have hidx : ¬ strings.IndexByte label (ch ':') ≥ 0 :=
    fun h => hcolon ((IndexByte_nonneg_iff _ _).mp h)
  rw [redirectURL_host_eq req options hH hT, hfirst]
  simp only [hidx, if_false]

/-- C7, witness: Host `test.example.com` and targetHost `example.org:8080`
give the host `test.example.org:8080`; the port of Host `test.example.com:8080`
is dropped. -/
theorem redirectURL_host_first_label_witness :
    (redirectURL (newRequest (str "test.example.com") (str "/path") [] [])
        ⟨str "example.org:8080", str "via", false⟩).Host = str "test.example.org:8080" ∧
    (redirectURL (newRequest (str "test.example.com:8080") (str "/path") [] [])
        ⟨str "example.org", str "via", false⟩).Host = str "test.example.org" :=
  ⟨redirectURL_host_first_label (str "test") (str "example.com") _ _ (by decide) (by decide)
      (by decide) (by decide),
   redirectURL_host_first_label (str "test") (str "example.com:8080") _ _ (by decide)
      (by decide) (by decide) (by decide)⟩

/-- C8: the URL returned has no user-info component, and the user-info of
the request URL has no influence on the URL returned. -/
theorem redirectURL_no_userinfo (req : http.Request) (options : redirectOptions) :
    (redirectURL req options).User = none ∧
    ∀ ui : Option url.Userinfo,
      redirectURL { req with URL := { req.URL with User := ui } } options =
        redirectURL req options := by
  constructor
  · simp only [redirectURL]
    split <;> split <;> (try split) <;> rfl
  · intro ui
    simp only [redirectURL, url.URL.Query]

/-! ## The store -/

theorem Store.write_append_length (s : Store) (u : url.URL) (f : url.URL → url.URL) :
    Store.write (s ++ [u]) s.length f = s ++ [f u] := by
  induction s with
  | nil => rfl
  | cons v s ih => simp [Store.write, ih]

theorem Store.read_append_length (s : Store) (u : url.URL) :
    Store.read (s ++ [u]) s.length = u := by
  simp [Store.read, List.getD_eq_getElem?_getD]

theorem Store.read_append_of_lt (s : Store) (u : url.URL) (q : Nat) (h : q < s.length) :
    Store.read (s ++ [u]) q = Store.read s q := by
  simp [Store.read, List.getD_eq_getElem?_getD, List.getElem?_append_left h]

/-- The store version of `redirectURL` allocates one new value, the one the
pure version computes, and returns the pointer to it. -/
theorem redirectURLStore_eq (store : Store) (p : Nat) (req : http.Request)
    (options : redirectOptions) (hp : p < store.length) (hreq : store.read p = req.URL) :
    redirectURLStore store p req.Host options =
      some (store ++ [redirectURL req options], store.length) := by
  have hread : Store.read (store ++ [zeroURL]) p = req.URL := by
    rw [Store.read_append_of_lt _ _ _ hp, hreq]
  simp only [redirectURLStore, hp, if_true, Store.write_append_length, hread, redirectURL]
  split <;> split <;> (try split) <;>
    simp only [Store.write_append_length, Store.read_append_length]

/-- C9: `redirectURL` changes only the scheme, the user-info, the host and,
when the host parameter is added, the raw query: every other field of the
output is the one of the request URL, the raw query is the request's unless
Host, targetHost and hostQueryParam are all non-empty, and on the store the
call writes to a newly allocated URL only, so that the request's own URL (and
every other URL allocated before) is left as it was. -/
theorem redirectURL_frame (req : http.Request) (options : redirectOptions) :
    (redirectURL req options).Opaque = req.URL.Opaque ∧
    (redirectURL req options).Path = req.URL.Path ∧
    (redirectURL req options).RawPath = req.URL.RawPath ∧
    (redirectURL req options).OmitHost = req.URL.OmitHost ∧
    (redirectURL req options).ForceQuery = req.URL.ForceQuery ∧
    (redirectURL req options).Fragment = req.URL.Fragment ∧
    (redirectURL req options).RawFragment = req.URL.RawFragment ∧
    ((redirectURL req options).RawQuery = req.URL.RawQuery ∨
      (req.Host ≠ [] ∧ options.TargetHost ≠ [] ∧ options.HostQueryParam ≠ [])) ∧
    ∀ (store : Store) (p : Nat), p < store.length → store.read p = req.URL →
      ∃ store1, redirectURLStore store p req.Host options = some (store1, store.length) ∧
        store1.read store.length = redirectURL req options ∧
        ∀ q, q < store.length → store1.read q = store.read q := by
  refine ⟨?_, ?_, ?_, ?_, ?_, ?_, ?_, ?_, ?_⟩
  · simp only [redirectURL]; split <;> split <;> (try split) <;> rfl
  · simp only [redirectURL]; split <;> split <;> (try split) <;> rfl
  · simp only [redirectURL]; split <;> split <;> (try split) <;> rfl
  · simp only [redirectURL]; split <;> split <;> (try split) <;> rfl
  · simp only [redirectURL]; split <;> split <;> (try split) <;> rfl
  · simp only [redirectURL]; split <;> split <;> (try split) <;> rfl
  · simp only [redirectURL]; split <;> split <;> (try split) <;> rfl
  · by_cases h : req.Host ≠ [] ∧ options.TargetHost ≠ [] ∧ options.HostQueryParam ≠ []
    · exact Or.inr h
    · left
      simp only [redirectURL]
      split <;> split <;> (try split) <;> simp_all
  · intro store p hp hreq
    exact ⟨_, redirectURLStore_eq store p req options hp hreq,
      Store.read_append_length _ _, fun q hq => Store.read_append_of_lt _ _ q hq⟩

/-! ## Escaping: facts on single bytes -/


theorem forall_byte (P : UInt8 → Prop) (h : ∀ v : Fin 256, P (UInt8.mk (BitVec.ofFin v))) :
    ∀ c : UInt8, P c := by
  intro c
  cases c with
  | mk bv =>
    cases bv with
    | ofFin v => exact h v

theorem escapeByte_query_cases (c : UInt8) :
    (c = ch ' ' ∧ escapeByte c encodeQueryComponent = [ch '+']) ∨
    (escapeByte c encodeQueryComponent = [ch '%', upperhex (c >>> 4), upperhex (c &&& 15)] ∧
      ishex (upperhex (c >>> 4)) = true ∧ ishex (upperhex (c &&& 15)) = true ∧
      (unhex (upperhex (c >>> 4)) <<< 4 ||| unhex (upperhex (c &&& 15))) = c) ∨
    (escapeByte c encodeQueryComponent = [c] ∧ c ≠ ch '%' ∧ c ≠ ch '+') := by
  revert c
  apply forall_byte
  decide

theorem escapeByte_query_no_separator (c : UInt8) :
    ∀ b ∈ escapeByte c encodeQueryComponent, b ≠ ch '&' ∧ b ≠ ch '=' ∧ b ≠ ch ';' := by
  revert c
  apply forall_byte
  decide

/-! ## Escaping: strings -/

theorem escape_cons (c : UInt8) (s : GoString) (mode : encoding) :
    escape (c :: s) mode = escapeByte c mode ++ escape s mode := by
  simp [escape]

theorem QueryEscape_no_separator (s : GoString) :
    ∀ b ∈ QueryEscape s, b ≠ ch '&' ∧ b ≠ ch '=' ∧ b ≠ ch ';' := by
  intro b hb
  simp only [QueryEscape, escape, List.mem_flatMap] at hb
  obtain ⟨c, _, hc⟩ := hb
  exact escapeByte_query_no_separator c b hc

theorem unescape_query_cons (c : UInt8) (s : GoString) (h : c ≠ ch '%') :
    unescape encodeQueryComponent (c :: s) =
      (unescape encodeQueryComponent s).map
        (fun r => (if c = ch '+' then ch ' ' else c) :: r) := by
  rcases s with _ | ⟨a, _ | ⟨b, t⟩⟩ <;>
    (simp only [unescape, h, if_false]
     split <;> simp_all)

theorem unescape_escapeByte (c : UInt8) (rest : GoString) :
    unescape encodeQueryComponent (escapeByte c encodeQueryComponent ++ rest) =
      (unescape encodeQueryComponent rest).map (fun r => c :: r) := by
  rcases escapeByte_query_cases c with ⟨hc, he⟩ | ⟨he, h1, h2, h3⟩ | ⟨he, h1, h2⟩
  · rw [he, hc, List.singleton_append, unescape_query_cons _ _ (by decide)]
    simp
  · rw [he]
    simp [unescape, h1, h2, h3]
  · rw [he, List.singleton_append, unescape_query_cons _ _ h1]
    simp [h2]

theorem QueryUnescape_QueryEscape (s : GoString) : QueryUnescape (QueryEscape s) = some s := by
  induction s with
  | nil => simp [QueryUnescape, QueryEscape, escape, unescape]
  | cons c s ih =>
    simp only [QueryUnescape, QueryEscape] at ih ⊢
    rw [escape_cons, unescape_escapeByte, ih]
    rfl

/-! ## `strings.Split` and `strings.Cut` on joined text -/

theorem Split_append (a b : GoString) (sep : UInt8) :
    strings.Split (a ++ sep :: b) sep = strings.Split a sep ++ strings.Split b sep := by
  induction a with
  | nil => simp [strings.Split]
  | cons c a ih =>
    by_cases hc : c = sep
    · simp [strings.Split, hc, ih]
    · have hcons : ∀ s : GoString, strings.Split (c :: s) sep =
          match strings.Split s sep with
          | [] => [[c]]
          | x :: xs => (c :: x) :: xs := by
        intro s
        simp only [strings.Split, hc, if_false]
      rw [List.cons_append, hcons, ih, hcons]
      cases hs : strings.Split a sep with
      | nil => exact absurd hs (Split_ne_nil a sep)
      | cons x xs => simp

theorem Cut_append_sep (a b : GoString) (sep : UInt8) (h : sep ∉ a) :
    strings.Cut (a ++ sep :: b) sep = (a, b, true) := by
  induction a with
  | nil => simp [strings.Cut]
  | cons c a ih =>
    simp only [List.mem_cons, not_or] at h
    have hc : ¬ c = sep := fun e => h.1 e.symm
    simp [strings.Cut, hc, ih h.2]

/-! ## The map operations -/

theorem Values.index_assign (m : Values) (key k : GoString) (vs : List GoString) :
    (m.assign key vs).index k = if key = k then vs else m.index k := by
  induction m with
  | nil => simp [Values.assign, Values.index]
  | cons e m ih =>
    obtain ⟨k0, vs0⟩ := e
    by_cases h0 : k0 = key
    · subst h0
      simp only [Values.assign, if_true, Values.index]
      split <;> rfl
    · simp only [Values.assign, h0, if_false, Values.index, ih]
      by_cases h1 : k0 = k
      · have : ¬ key = k := fun e => h0 (h1.trans e.symm)
        simp [h1, this]
      · simp [h1]

theorem Values.keys_assign (m : Values) (key : GoString) (vs : List GoString) :
    (m.assign key vs).keys = if key ∈ m.keys then m.keys else m.keys ++ [key] := by
  induction m with
  | nil => simp [Values.assign, Values.keys]
  | cons e m ih =>
    obtain ⟨k0, vs0⟩ := e
    by_cases h0 : k0 = key
    · subst h0
      simp [Values.assign, Values.keys]
    · have h0' : ¬ key = k0 := fun e => h0 e.symm
      simp only [Values.keys] at ih
      simp only [Values.assign, h0, if_false, Values.keys, List.map_cons, ih, List.mem_cons, h0',
        false_or]
      split <;> simp

theorem Values.assign_of_not_mem (m : Values) (key : GoString) (vs : List GoString)
    (h : key ∉ m.keys) : m.assign key vs = m ++ [(key, vs)] := by
  induction m with
  | nil => simp [Values.assign]
  | cons e m ih =>
    obtain ⟨k0, vs0⟩ := e
    simp only [Values.keys, List.map_cons, List.mem_cons, not_or] at h
    have h0 : ¬ k0 = key := fun e => h.1 e.symm
    simp only [Values.assign, h0, if_false, List.cons_append]
    rw [ih h.2]

theorem Values.index_of_not_mem (m : Values) (k : GoString) (h : k ∉ m.keys) :
    m.index k = [] := by
  induction m with
  | nil => simp [Values.index]
  | cons e m ih =>
    obtain ⟨k0, vs0⟩ := e
    simp only [Values.keys, List.map_cons, List.mem_cons, not_or] at h
    have h0 : ¬ k0 = k := fun e => h.1 e.symm
    simp only [Values.index, h0, if_false]
    exact ih h.2

theorem Values.nodup_keys_assign (m : Values) (key : GoString) (vs : List GoString)
    (h : m.keys.Nodup) : (m.assign key vs).keys.Nodup := by
  rw [Values.keys_assign]
  split
  · exact h
  · rename_i hk
    exact List.Nodup.append h (by simp) (by simpa using hk)

theorem nodup_keys_parseQueryPair (m : Values) (key : GoString) (h : m.keys.Nodup) :
    (parseQueryPair m key).keys.Nodup := by
  simp only [parseQueryPair]
  split
  · exact h
  · split
    · exact h
    · split
      · exact h
      · split
        · exact h
        · exact Values.nodup_keys_assign _ _ _ h

theorem nodup_keys_foldl_parseQueryPair (segs : List GoString) (m : Values) (h : m.keys.Nodup) :
    (segs.foldl parseQueryPair m).keys.Nodup := by
  induction segs generalizing m with
  | nil => exact h
  | cons s segs ih => exact ih _ (nodup_keys_parseQueryPair m s h)

theorem nodup_keys_ParseQuery (query : GoString) : (ParseQuery query).keys.Nodup := by
  simp only [ParseQuery, parseQuery, parseQueryLoop]
  split
  · simp [Values.keys]
  · exact nodup_keys_foldl_parseQueryPair _ _ (by simp [Values.keys])

/-! ## `Values.Encode` followed by the loop of `parseQuery` -/

theorem encodeKey_eq (k : GoString) (vs : List GoString) (buf : GoString) :
    encodeKey (QueryEscape k) buf vs = (vs.map (fun x => (k, x))).foldl encodePair buf := by
  induction vs generalizing buf with
  | nil => rfl
  | cons x vs ih => simp only [encodeKey, List.map_cons, List.foldl_cons, ih, encodePair]

theorem foldl_encodeKey_eq (v : Values) (ks : List GoString) (buf : GoString) :
    ks.foldl (fun buf k => encodeKey (QueryEscape k) buf (v.index k)) buf =
      (queryPairs v ks).foldl encodePair buf := by
  induction ks generalizing buf with
  | nil => rfl
  | cons k ks ih =>
    simp only [List.foldl_cons, queryPairs, List.flatMap_cons, List.foldl_append]
    rw [encodeKey_eq]
    exact ih _

theorem Encode_eq (v : Values) :
    v.Encode = (queryPairs v (sortStrings v.keys)).foldl encodePair [] := by
  cases v with
  | nil => rfl
  | cons e v =>
    simp only [Values.Encode, List.length_cons, Nat.add_one_ne_zero, if_false]
    exact foldl_encodeKey_eq _ _ _

theorem pairText_ne_nil (p : GoString × GoString) : pairText p ≠ [] := by
  simp [pairText]

theorem amp_not_mem_pairText (p : GoString × GoString) : ch '&' ∉ pairText p := by
  intro h
  simp only [pairText, List.mem_append, List.mem_cons] at h
  rcases h with h | h | h
  · exact (QueryEscape_no_separator _ _ h).1 rfl
  · exact absurd h (by decide)
  · exact (QueryEscape_no_separator _ _ h).1 rfl

theorem encodePair_nil (p : GoString × GoString) : encodePair [] p = pairText p := by
  simp [encodePair, pairText]

theorem encodePair_of_ne_nil (buf : GoString) (p : GoString × GoString) (h : buf ≠ []) :
    encodePair buf p = buf ++ ch '&' :: pairText p := by
  have : buf.length > 0 := List.length_pos.mpr h
  simp [encodePair, pairText, this]

theorem Split_foldl_encodePair (pairs : List (GoString × GoString)) (buf : GoString)
    (h : buf ≠ []) :
    strings.Split (pairs.foldl encodePair buf) (ch '&') =
      strings.Split buf (ch '&') ++ pairs.map pairText := by
  induction pairs generalizing buf with
  | nil => simp
  | cons p pairs ih =>
    have hne : encodePair buf p ≠ [] := by
      rw [encodePair_of_ne_nil buf p h]; simp
    rw [List.foldl_cons, ih _ hne, encodePair_of_ne_nil buf p h, Split_append,
      Split_of_not_mem _ _ (amp_not_mem_pairText p)]
    simp

theorem Split_foldl_encodePair_nil (p : GoString × GoString)
    (pairs : List (GoString × GoString)) :
    strings.Split ((p :: pairs).foldl encodePair []) (ch '&') = (p :: pairs).map pairText := by
  rw [List.foldl_cons, encodePair_nil, Split_foldl_encodePair _ _ (pairText_ne_nil p),
    Split_of_not_mem _ _ (amp_not_mem_pairText p)]
  simp

theorem parseQueryPair_pairText (m : Values) (p : GoString × GoString) :
    parseQueryPair m (pairText p) = addPair m p := by
  have hsemi : strings.Contains (pairText p) (ch ';') = false := by
    simp only [strings.Contains, decide_eq_false_iff_not, IndexByte_nonneg_iff, pairText,
      List.mem_append, List.mem_cons]
    intro h
    rcases h with h | h | h
    · exact (QueryEscape_no_separator _ _ h).2.2 rfl
    · exact absurd h (by decide)
    · exact (QueryEscape_no_separator _ _ h).2.2 rfl
  have hcut : strings.Cut (pairText p) (ch '=') = (QueryEscape p.1, QueryEscape p.2, true) :=
    Cut_append_sep _ _ _ (fun h => (QueryEscape_no_separator _ _ h).2.1 rfl)
  simp only [parseQueryPair, hsemi, pairText_ne_nil, hcut, QueryUnescape_QueryEscape, addPair]
  simp

theorem foldl_parseQueryPair_pairText (pairs : List (GoString × GoString)) (m : Values) :
    (pairs.map pairText).foldl parseQueryPair m = pairs.foldl addPair m := by
  induction pairs generalizing m with
  | nil => rfl
  | cons p pairs ih => simp only [List.map_cons, List.foldl_cons, parseQueryPair_pairText, ih]

theorem parseQueryLoop_Encode (v : Values) :
    parseQueryLoop [] v.Encode = (queryPairs v (sortStrings v.keys)).foldl addPair [] := by
  rw [Encode_eq, parseQueryLoop]
  cases hp : queryPairs v (sortStrings v.keys) with
  | nil => simp [strings.Split, parseQueryPair, strings.Contains, strings.IndexByte]
  | cons p pairs => rw [Split_foldl_encodePair_nil, foldl_parseQueryPair_pairText]

theorem index_foldl_addPair (pairs : List (GoString × GoString)) (m : Values) (k : GoString) :
    (pairs.foldl addPair m).index k =
      m.index k ++ (pairs.filter (fun p => decide (p.1 = k))).map Prod.snd := by
  induction pairs generalizing m with
  | nil => simp
  | cons p pairs ih =>
    rw [List.foldl_cons, ih, addPair, Values.index_assign]
    by_cases h : p.1 = k
    · simp [h, List.filter_cons]
    · simp [h, List.filter_cons]

theorem filter_queryPairs (v : Values) (ks : List GoString) (k : GoString) (hnd : ks.Nodup) :
    ((queryPairs v ks).filter (fun p => decide (p.1 = k))).map Prod.snd =
      if k ∈ ks then v.index k else [] := by
  induction ks with
  | nil => simp [queryPairs]
  | cons k0 ks ih =>
    have hnd' := List.nodup_cons.mp hnd
    have ih' := ih hnd'.2
    simp only [queryPairs, List.flatMap_cons, List.filter_append, List.map_append] at ih' ⊢
    rw [ih']
    by_cases h : k0 = k
    · subst h
      have hk : k0 ∉ ks := hnd'.1
      simp [hk, List.filter_map, Function.comp_def]
    · have h' : ¬ k = k0 := fun e => h e.symm
      simp [h, h', List.filter_map, Function.comp_def]

theorem mem_sortStrings (ks : List GoString) (k : GoString) : k ∈ sortStrings ks ↔ k ∈ ks :=
  (List.perm_insertionSort _ ks).mem_iff

theorem nodup_sortStrings (ks : List GoString) (h : ks.Nodup) : (sortStrings ks).Nodup :=
  (List.perm_insertionSort _ ks).nodup_iff.mpr h

/-- Decoding the encoded form of a map gives back, for every key, the values
the map holds for it. -/
theorem index_decodeQuery_Encode (v : Values) (k : GoString) (hnd : v.keys.Nodup) :
    (decodeQuery v.Encode).index k = v.index k := by
  rw [decodeQuery, parseQueryLoop_Encode, index_foldl_addPair,
    filter_queryPairs _ _ _ (nodup_sortStrings _ hnd)]
  simp only [Values.index, List.nil_append, mem_sortStrings]
  split
  · rfl
  · rename_i h
    exact (Values.index_of_not_mem v k h).symm

/-! ## The output query -/

/-- The raw query of the output when the host parameter is added. -/
theorem redirectURL_RawQuery_eq (req : http.Request) (options : redirectOptions)
    (hH : req.Host ≠ []) (hT : options.TargetHost ≠ []) (hP : options.HostQueryParam ≠ []) :
    (redirectURL req options).RawQuery =
      (req.URL.Query.Set options.HostQueryParam req.Host).Encode := by
  have h1 : req.Host.length ≠ 0 := by simpa using hH
  have h2 : options.TargetHost.length ≠ 0 := by simpa using hT
  simp only [redirectURL, h1, h2, ne_eq, not_false_eq_true, and_self, if_true, hP]
  split <;> rfl

theorem nodup_keys_Set (req : http.Request) (key value : GoString) :
    (req.URL.Query.Set key value).keys.Nodup :=
  Values.nodup_keys_assign _ _ _ (nodup_keys_ParseQuery _)

theorem mem_keys_Set (v : Values) (key value : GoString) : key ∈ (v.Set key value).keys := by
  rw [Values.Set, Values.keys_assign]
  split
  · assumption
  · simp

theorem Split_length (s : GoString) (sep : UInt8) :
    (strings.Split s sep).length = strings.Count s sep + 1 := by
  induction s with
  | nil => rfl
  | cons b s ih =>
    simp only [strings.Count] at ih ⊢
    by_cases hb : b = sep
    · subst hb
      simp [strings.Split, ih]
    · have hcount : List.count sep (b :: s) = List.count sep s := by
        simp [List.count_cons, hb]
      simp only [strings.Split, hb, if_false, hcount]
      cases hs : strings.Split s sep with
      | nil => exact absurd hs (Split_ne_nil s sep)
      | cons x xs => rw [hs] at ih; simpa using ih

/-- Within the limit on the number of parameters `url.ParseQuery` is the
loop. -/
theorem ParseQuery_within (query : GoString)
    (h : strings.Count query (ch '&') + 1 ≤ defaultMaxParams) :
    ParseQuery query = parseQueryLoop [] query := by
  simp [ParseQuery, parseQuery, urlParamsWithinMax, h]

theorem parseQueryPair_eq_specParam (m : Values) (part : GoString) :
    parseQueryPair m part =
      match specParam part with
      | none => m
      | some p => addPair m p := by
  simp only [parseQueryPair, specParam, strings.Contains, decide_eq_true_eq,
    IndexByte_nonneg_iff, addPair]
  by_cases h1 : ch ';' ∈ part
  · simp [h1]
  · by_cases h2 : part = []
    · simp [h2]
    · simp only [h1, h2, if_false, or_self]
      cases QueryUnescape (strings.Cut part (ch '=')).1 with
      | none => rfl
      | some k =>
        cases QueryUnescape (strings.Cut part (ch '=')).2.1 with
        | none => rfl
        | some v => rfl

theorem foldl_parseQueryPair_eq (parts : List GoString) (m : Values) :
    parts.foldl parseQueryPair m = (parts.filterMap specParam).foldl addPair m := by
  induction parts generalizing m with
  | nil => rfl
  | cons part parts ih =>
    rw [List.foldl_cons, ih, parseQueryPair_eq_specParam, List.filterMap_cons]
    cases specParam part with
    | none => rfl
    | some p => rfl

theorem parseQueryLoop_eq (query : GoString) :
    parseQueryLoop [] query = (specParams query).foldl addPair [] := by
  rw [parseQueryLoop, foldl_parseQueryPair_eq, specParams]

theorem mem_keys_foldl_addPair (pairs : List (GoString × GoString)) (m : Values)
    (k : GoString) :
    k ∈ (pairs.foldl addPair m).keys ↔ k ∈ m.keys ∨ k ∈ pairs.map Prod.fst := by
  induction pairs generalizing m with
  | nil => simp
  | cons p pairs ih =>
    rw [List.foldl_cons, ih, addPair, Values.keys_assign]
    by_cases hp : p.1 ∈ m.keys
    · simp only [hp, if_true, List.map_cons, List.mem_cons]
      constructor
      · rintro (h | h)
        · exact Or.inl h
        · exact Or.inr (Or.inr h)
      · rintro (h | h | h)
        · exact Or.inl h
        · exact Or.inl (h ▸ hp)
        · exact Or.inr h
    · simp only [hp, if_false, List.mem_append, List.mem_singleton, List.map_cons, List.mem_cons]
      tauto

theorem mem_keys_of_index_ne_nil (m : Values) (k : GoString) (h : m.index k ≠ []) :
    k ∈ m.keys := by
  by_contra hk
  exact h (Values.index_of_not_mem m k hk)

/-- The parts of the encoded form of a map with some pair. -/
theorem mem_Split_Encode (v : Values) (k x : GoString) (hx : x ∈ v.index k) :
    pairText (k, x) ∈ strings.Split v.Encode (ch '&') := by
  have hk : k ∈ v.keys := mem_keys_of_index_ne_nil v k (List.ne_nil_of_mem hx)
  have hmem : (k, x) ∈ queryPairs v (sortStrings v.keys) := by
    simp only [queryPairs, List.mem_flatMap, List.mem_map]
    exact ⟨k, (mem_sortStrings _ _).mpr hk, x, hx, rfl⟩
  rw [Encode_eq]
  cases hq : queryPairs v (sortStrings v.keys) with
  | nil => rw [hq] at hmem; exact absurd hmem (List.not_mem_nil _)
  | cons p pairs =>
    rw [Split_foldl_encodePair_nil, ← hq]
    exact List.mem_map.mpr ⟨_, hmem, rfl⟩

/-- C4: with Host, targetHost and hostQueryParam non-empty, decoding the
output query gives exactly one value for the parameter, the request Host as
received, whatever the original query held for it; in the encoded query the
pair stands percent-escaped, as one of the `&`-separated parts. The decoding
is that of `url.ParseQuery`, pair by pair; `URL.Query` itself gives the same
when the output query has at most 10000 parts. -/
theorem redirectURL_query_param (req : http.Request) (options : redirectOptions)
    (hH : req.Host ≠ []) (hT : options.TargetHost ≠ []) (hP : options.HostQueryParam ≠ []) :
    (decodeQuery (redirectURL req options).RawQuery).index options.HostQueryParam =
      [req.Host] ∧
    (QueryEscape options.HostQueryParam ++ ch '=' :: QueryEscape req.Host) ∈
      strings.Split (redirectURL req options).RawQuery (ch '&') ∧
    (strings.Count (redirectURL req options).RawQuery (ch '&') + 1 ≤ defaultMaxParams →
      (redirectURL req options).Query.index options.HostQueryParam = [req.Host]) := by
  have hidx : (req.URL.Query.Set options.HostQueryParam req.Host).index options.HostQueryParam =
      [req.Host] := by
    simp [Values.Set, Values.index_assign]
  have hdec : (decodeQuery (redirectURL req options).RawQuery).index options.HostQueryParam =
      [req.Host] := by
    rw [redirectURL_RawQuery_eq req options hH hT hP,
      index_decodeQuery_Encode _ _ (nodup_keys_Set req _ _), hidx]
  refine ⟨hdec, ?_, fun hlim => ?_⟩
  · rw [redirectURL_RawQuery_eq req options hH hT hP]
    exact mem_Split_Encode _ _ _ (by rw [hidx]; exact List.mem_singleton_self _)
  · rw [URL.Query, ParseQuery_within _ hlim]
    exact hdec

/-- C4, witness: Host `localhost:8080` gives the query `via=localhost%3A8080`,
also when the original query held two values for `via`. -/
theorem redirectURL_query_param_witness :
    (decodeQuery (redirectURL (newRequest (str "localhost:8080") (str "/path")
        (str "via=a&via=b") []) ⟨str "example.org", str "via", false⟩).RawQuery).index
        (str "via") = [str "localhost:8080"] ∧
    (redirectURL (newRequest (str "localhost:8080") (str "/path") (str "via=a&via=b") [])
        ⟨str "example.org", str "via", false⟩).RawQuery = str "via=localhost%3A8080" :=
  ⟨(redirectURL_query_param _ _ (by decide) (by decide) (by decide)).1, by decide⟩

theorem orderedInsert_append_last (r : GoString → GoString → Prop) [DecidableRel r]
    (a p : GoString) (l : List GoString) (h : r a p) :
    List.orderedInsert r a (l ++ [p]) = List.orderedInsert r a l ++ [p] := by
  induction l with
  | nil => simp [List.orderedInsert, h]
  | cons b l ih =>
    simp only [List.cons_append, List.orderedInsert]
    split
    · simp
    · simp [ih]

theorem sortStrings_append_last (ks : List GoString) (p : GoString)
    (h : ∀ k ∈ ks, lessEq k p = true) : sortStrings (ks ++ [p]) = sortStrings ks ++ [p] := by
  induction ks with
  | nil => rfl
  | cons a ks ih =>
    have ih' := ih (fun k hk => h k (List.mem_cons_of_mem _ hk))
    have e1 : sortStrings ((a :: ks) ++ [p]) =
        List.orderedInsert (fun a b => lessEq a b = true) a (sortStrings (ks ++ [p])) := rfl
    have e2 : sortStrings (a :: ks) =
        List.orderedInsert (fun a b => lessEq a b = true) a (sortStrings ks) := rfl
    rw [e1, e2, ih']
    exact orderedInsert_append_last (fun a b => lessEq a b = true) a p _
      (h a (List.mem_cons_self _ _))

theorem queryPairs_congr (v w : Values) (ks : List GoString)
    (h : ∀ k ∈ ks, v.index k = w.index k) : queryPairs v ks = queryPairs w ks := by
  induction ks with
  | nil => rfl
  | cons k ks ih =>
    simp only [queryPairs, List.flatMap_cons] at ih ⊢
    rw [h k (List.mem_cons_self _ _), ih (fun k hk => h k (List.mem_cons_of_mem _ hk))]

theorem byte_trichotomy (a b : UInt8) : a < b ∨ a = b ∨ b < a := by
  by_cases h1 : a < b
  · exact Or.inl h1
  · by_cases h2 : b < a
    · exact Or.inr (Or.inr h2)
    · exact Or.inr (Or.inl (UInt8.le_antisymm (UInt8.not_lt.mp h2) (UInt8.not_lt.mp h1)))

theorem lessEq_cons (a b : UInt8) (s t : GoString) :
    lessEq (a :: s) (b :: t) = true ↔ a < b ∨ (a = b ∧ lessEq s t = true) := by
  simp [lessEq]

theorem lessEq_refl (s : GoString) : lessEq s s = true := by
  induction s with
  | nil => rfl
  | cons a s ih => exact (lessEq_cons a a s s).mpr (Or.inr ⟨rfl, ih⟩)

theorem lessEq_total (s t : GoString) : lessEq s t = true ∨ lessEq t s = true := by
  induction s generalizing t with
  | nil => exact Or.inl rfl
  | cons a s ih =>
    cases t with
    | nil => exact Or.inr rfl
    | cons b t =>
      rw [lessEq_cons, lessEq_cons]
      rcases byte_trichotomy a b with h | h | h
      · exact Or.inl (Or.inl h)
      · subst h
        rcases ih t with h | h
        · exact Or.inl (Or.inr ⟨rfl, h⟩)
        · exact Or.inr (Or.inr ⟨rfl, h⟩)
      · exact Or.inr (Or.inl h)

theorem lessEq_trans (s t u : GoString) (h1 : lessEq s t = true) (h2 : lessEq t u = true) :
    lessEq s u = true := by
  induction s generalizing t u with
  | nil => rfl
  | cons a s ih =>
    cases t with
    | nil => simp [lessEq] at h1
    | cons b t =>
      cases u with
      | nil => simp [lessEq] at h2
      | cons c u =>
        rw [lessEq_cons] at h1 h2 ⊢
        rcases h1 with h1 | ⟨h1, h1'⟩
        · rcases h2 with h2 | ⟨h2, _⟩
          · exact Or.inl (UInt8.lt_trans h1 h2)
          · subst h2; exact Or.inl h1
        · subst h1
          rcases h2 with h2 | ⟨h2, h2'⟩
          · exact Or.inl h2
          · exact Or.inr ⟨h2, ih t u h1' h2'⟩

theorem sorted_sortStrings (ks : List GoString) :
    (sortStrings ks).Pairwise (fun a b => lessEq a b = true) := by
  haveI : IsTotal GoString (fun a b => lessEq a b = true) := ⟨lessEq_total⟩
  haveI : IsTrans GoString (fun a b => lessEq a b = true) := ⟨lessEq_trans⟩
  exact List.sorted_insertionSort (fun a b => lessEq a b = true) ks

theorem mem_queryPairs (v : Values) (ks : List GoString) (p : GoString × GoString)
    (h : p ∈ queryPairs v ks) : p.1 ∈ ks := by
  simp only [queryPairs, List.mem_flatMap, List.mem_map] at h
  obtain ⟨k, hk, x, _, rfl⟩ := h
  exact hk

theorem pairwise_queryPairs (v : Values) (ks : List GoString)
    (h : ks.Pairwise (fun a b => lessEq a b = true)) :
    (queryPairs v ks).Pairwise (fun a b => lessEq a.1 b.1 = true) := by
  induction ks with
  | nil => simp [queryPairs]
  | cons k ks ih =>
    have hk := List.pairwise_cons.mp h
    have e : queryPairs v (k :: ks) = (v.index k).map (fun x => (k, x)) ++ queryPairs v ks := by
      simp [queryPairs]
    rw [e, List.pairwise_append]
    refine ⟨?_, ih hk.2, ?_⟩
    · rw [List.pairwise_map]
      exact List.pairwise_of_forall (fun _ _ => lessEq_refl k)
    · intro a ha b hb
      obtain ⟨x, _, rfl⟩ := List.mem_map.mp ha
      exact hk.1 _ (mem_queryPairs v ks b hb)

theorem count_pair_beq [BEq (GoString × GoString)] [LawfulBEq (GoString × GoString)]
    (l : List (GoString × GoString)) (k x : GoString) :
    l.count (k, x) = ((l.filter (fun p => decide (p.1 = k))).map Prod.snd).count x := by
  induction l with
  | nil => rfl
  | cons p l ih =>
    obtain ⟨pk, px⟩ := p
    rw [List.count_cons, ih]
    by_cases h1 : pk = k
    · subst h1
      by_cases h2 : px = x
      · subst h2; simp [List.filter_cons]
      · have h3 : ((pk, px) == (pk, x)) = false :=
          beq_eq_false_iff_ne.mpr (fun e => h2 (Prod.mk.inj e).2)
        simp [List.filter_cons, List.count_cons, h2, h3]
    · have h3 : ((pk, px) == (k, x)) = false :=
        beq_eq_false_iff_ne.mpr (fun e => h1 (Prod.mk.inj e).1)
      simp [List.filter_cons, h1, h3]

theorem count_pair [inst : DecidableEq (GoString × GoString)]
    (l : List (GoString × GoString)) (k x : GoString) :
    @List.count (GoString × GoString) (@instBEqOfDecidableEq (GoString × GoString) inst) (k, x) l =
      ((l.filter (fun p => decide (p.1 = k))).map Prod.snd).count x :=
  @count_pair_beq (@instBEqOfDecidableEq (GoString × GoString) inst)
    (@instLawfulBEq (GoString × GoString) inst) l k x

/-- The pairs that `Values.Encode` writes for the map built from a list of
pairs: for every key, its values are those of the list, in their order. -/
theorem filter_queryPairs_foldl_addPair (pairs : List (GoString × GoString)) (v : Values)
    (hv : v = pairs.foldl addPair []) (hnd : v.keys.Nodup) (k : GoString) :
    ((queryPairs v (sortStrings v.keys)).filter (fun p => decide (p.1 = k))).map Prod.snd =
      (pairs.filter (fun p => decide (p.1 = k))).map Prod.snd := by
  rw [filter_queryPairs _ _ _ (nodup_sortStrings _ hnd)]
  have hidx : v.index k = (pairs.filter (fun p => decide (p.1 = k))).map Prod.snd := by
    rw [hv, index_foldl_addPair]; rfl
  split
  · rw [hidx]
  · rename_i h
    rw [← hidx, Values.index_of_not_mem v k (fun hk => h ((mem_sortStrings _ _).mpr hk))]

/-- The pairs that `Values.Encode` writes for the map built from a list of
pairs are the pairs of the list, in another order. -/
theorem perm_queryPairs_foldl_addPair (pairs : List (GoString × GoString)) (v : Values)
    (hv : v = pairs.foldl addPair []) (hnd : v.keys.Nodup) :
    (queryPairs v (sortStrings v.keys)).Perm pairs := by
  rw [List.perm_iff_count]
  rintro ⟨k, x⟩
  rw [count_pair, count_pair, filter_queryPairs_foldl_addPair pairs v hv hnd k]

/-- C6, as amended: with Host, targetHost and hostQueryParam non-empty, an
original query of at most 10000 `&`-separated parts, and every well-formed
parameter of the original query having a key other than hostQueryParam that
sorts before hostQueryParam (bytewise), the `&`-separated parts of the output
query are the well-formed parameters of the original query, each escaped
anew, in the order of their keys and, for one key, in their original order,
followed by the host parameter as the last one; parts of the original query
that are not well-formed parameters are dropped. -/
theorem redirectURL_query_appended (req : http.Request) (options : redirectOptions)
    (hH : req.Host ≠ []) (hT : options.TargetHost ≠ []) (hP : options.HostQueryParam ≠ [])
    (hlim : strings.Count req.URL.RawQuery (ch '&') + 1 ≤ defaultMaxParams)
    (hkeys : ∀ key value : GoString, (key, value) ∈ specParams req.URL.RawQuery →
      key ≠ options.HostQueryParam ∧ lessEq key options.HostQueryParam = true) :
    ∃ params : List (GoString × GoString),
      strings.Split (redirectURL req options).RawQuery (ch '&') =
        (params ++ [(options.HostQueryParam, req.Host)]).map
          (fun p => QueryEscape p.1 ++ ch '=' :: QueryEscape p.2) ∧
      params.Perm (specParams req.URL.RawQuery) ∧
      params.Pairwise (fun a b => lessEq a.1 b.1 = true) ∧
      (∀ key : GoString,
        (params.filter (fun p => decide (p.1 = key))).map Prod.snd =
          ((specParams req.URL.RawQuery).filter (fun p => decide (p.1 = key))).map Prod.snd) := by
  have hQ : req.URL.Query = (specParams req.URL.RawQuery).foldl addPair [] := by
    rw [URL.Query, ParseQuery_within _ hlim, parseQueryLoop_eq]
  have hmem : ∀ k ∈ req.URL.Query.keys,
      k ≠ options.HostQueryParam ∧ lessEq k options.HostQueryParam = true := by
    intro k hk
    rw [hQ, mem_keys_foldl_addPair] at hk
    rcases hk with hk | hk
    · exact absurd hk (List.not_mem_nil _)
    · obtain ⟨⟨k', x⟩, hp, rfl⟩ := List.mem_map.mp hk
      exact hkeys k' x hp
  have hno : options.HostQueryParam ∉ req.URL.Query.keys := fun h => (hmem _ h).1 rfl
  have hset : req.URL.Query.Set options.HostQueryParam req.Host =
      req.URL.Query ++ [(options.HostQueryParam, [req.Host])] :=
    Values.assign_of_not_mem _ _ _ hno
  have hk : (req.URL.Query.Set options.HostQueryParam req.Host).keys =
      req.URL.Query.keys ++ [options.HostQueryParam] := by
    rw [hset]; simp [Values.keys]
  have hidxP : (req.URL.Query.Set options.HostQueryParam req.Host).index
      options.HostQueryParam = [req.Host] := by
    simp [Values.Set, Values.index_assign]
  have hidx : ∀ k ∈ sortStrings req.URL.Query.keys,
      (req.URL.Query.Set options.HostQueryParam req.Host).index k = req.URL.Query.index k := by
    intro k hk
    have hk' : k ∈ req.URL.Query.keys := (mem_sortStrings _ _).mp hk
    have hne : ¬ options.HostQueryParam = k := fun e => hno (e ▸ hk')
    simp [Values.Set, Values.index_assign, hne]
  have hpairs : queryPairs (req.URL.Query.Set options.HostQueryParam req.Host)
      (sortStrings req.URL.Query.keys ++ [options.HostQueryParam]) =
      queryPairs req.URL.Query (sortStrings req.URL.Query.keys) ++
        [(options.HostQueryParam, req.Host)] := by
    rw [← queryPairs_congr _ _ _ hidx]
    simp [queryPairs, hidxP]
  refine ⟨queryPairs req.URL.Query (sortStrings req.URL.Query.keys), ?_,
    perm_queryPairs_foldl_addPair _ _ hQ (nodup_keys_ParseQuery _),
    pairwise_queryPairs _ _ (sorted_sortStrings _),
    filter_queryPairs_foldl_addPair _ _ hQ (nodup_keys_ParseQuery _)⟩
  rw [redirectURL_RawQuery_eq req options hH hT hP, Encode_eq, hk,
    sortStrings_append_last _ _ (fun k hk => (hmem k hk).2), hpairs]
  cases hq : queryPairs req.URL.Query (sortStrings req.URL.Query.keys) ++
      [(options.HostQueryParam, req.Host)] with
  | nil => simp at hq
  | cons p pairs =>
    rw [Split_foldl_encodePair_nil]
    rfl

/-- C6, witness: the query `q=1` with the parameter `via` gives
`q=1&via=test.example.com`, and the query `b=1&a=%41&%zz` gives
`a=A&b=1&via=test.example.com`. -/
theorem redirectURL_query_appended_witness :
    (∃ params : List (GoString × GoString),
      strings.Split (redirectURL (newRequest (str "test.example.com") (str "/path")
          (str "b=1&a=%41&%zz") []) ⟨str "example.org", str "via", false⟩).RawQuery (ch '&') =
        (params ++ [(str "via", str "test.example.com")]).map
          (fun p => QueryEscape p.1 ++ ch '=' :: QueryEscape p.2) ∧
      params.Perm (specParams (str "b=1&a=%41&%zz")) ∧
      params.Pairwise (fun a b => lessEq a.1 b.1 = true) ∧
      (∀ key : GoString,
        (params.filter (fun p => decide (p.1 = key))).map Prod.snd =
          ((specParams (str "b=1&a=%41&%zz")).filter
            (fun p => decide (p.1 = key))).map Prod.snd)) ∧
    specParams (str "b=1&a=%41&%zz") = [(str "b", str "1"), (str "a", str "A")] ∧
    (redirectURL (newRequest (str "test.example.com") (str "/path") (str "b=1&a=%41&%zz") [])
        ⟨str "example.org", str "via", false⟩).RawQuery = str "a=A&b=1&via=test.example.com" ∧
    (redirectURL (newRequest (str "test.example.com") (str "/path") (str "q=1") [])
        ⟨str "example.org", str "via", false⟩).RawQuery = str "q=1&via=test.example.com" :=
  ⟨redirectURL_query_appended (newRequest (str "test.example.com") (str "/path")
      (str "b=1&a=%41&%zz") []) ⟨str "example.org", str "via", false⟩ (by decide) (by decide)
      (by decide) (by decide)
      (by
        intro key value h
        have e : specParams (str "b=1&a=%41&%zz") = [(str "b", str "1"), (str "a", str "A")] := by
          decide
        change (key, value) ∈ specParams (str "b=1&a=%41&%zz") at h
        rw [e] at h
        simp only [List.mem_cons, Prod.mk.injEq, List.mem_singleton, List.not_mem_nil,
          or_false] at h
        rcases h with ⟨rfl, rfl⟩ | ⟨rfl, rfl⟩ <;> decide),
    by decide, by decide, by decide⟩

/-- C6, as stated, fails: the original query `z=1` has no key `via`, and the
output query is `via=test.example.com&z=1`: the host parameter comes first,
the last parameter is `z=1`. -/
theorem redirectURL_query_appended_counterexample :
    str "via" ∉ (newRequest (str "test.example.com") (str "/path") (str "z=1") []).URL.Query.keys ∧
    (redirectURL (newRequest (str "test.example.com") (str "/path") (str "z=1") [])
        ⟨str "example.org", str "via", false⟩).RawQuery = str "via=test.example.com&z=1" ∧
    (redirectURL (newRequest (str "test.example.com") (str "/path") (str "z=1") [])
        ⟨str "example.org", str "via", false⟩).RawQuery ≠ str "z=1&via=test.example.com" ∧
    (strings.Split (redirectURL (newRequest (str "test.example.com") (str "/path") (str "z=1") [])
        ⟨str "example.org", str "via", false⟩).RawQuery (ch '&')).getLast? = some (str "z=1") := by
  decide

/-! ## The string form of the output, and `http.Redirect` -/

theorem str_http : str "http" = [104, 116, 116, 112] := by decide
theorem str_https : str "https" = [104, 116, 116, 112, 115] := by decide

theorem getScheme_http (t : GoString) :
    getScheme (str "http" ++ ch ':' :: t) = some (str "http", t) := by
  have h1 : ch 'a' ≤ (104 : UInt8) ∧ (104 : UInt8) ≤ ch 'z' := by decide
  have h2 : ch 'a' ≤ (116 : UInt8) ∧ (116 : UInt8) ≤ ch 'z' := by decide
  have h3 : ch 'a' ≤ (112 : UInt8) ∧ (112 : UInt8) ≤ ch 'z' := by decide
  have h4 : ¬ (ch 'a' ≤ ch ':' ∧ ch ':' ≤ ch 'z') := by decide
  have h5 : ¬ (ch 'A' ≤ ch ':' ∧ ch ':' ≤ ch 'Z') := by decide
  have h6 : ¬ ((ch '0' ≤ ch ':' ∧ ch ':' ≤ ch '9') ∨ ch ':' = ch '+' ∨ ch ':' = ch '-' ∨
      ch ':' = ch '.') := by decide
  rw [str_http]
  simp only [getScheme, List.cons_append, List.nil_append, getSchemeLoop, h1, h2, h3, h4, h5, h6,
    true_or, or_self, if_true, if_false]
  simp

theorem getScheme_https (t : GoString) :
    getScheme (str "https" ++ ch ':' :: t) = some (str "https", t) := by
  have h1 : ch 'a' ≤ (104 : UInt8) ∧ (104 : UInt8) ≤ ch 'z' := by decide
  have h2 : ch 'a' ≤ (116 : UInt8) ∧ (116 : UInt8) ≤ ch 'z' := by decide
  have h3 : ch 'a' ≤ (112 : UInt8) ∧ (112 : UInt8) ≤ ch 'z' := by decide
  have h3' : ch 'a' ≤ (115 : UInt8) ∧ (115 : UInt8) ≤ ch 'z' := by decide
  have h4 : ¬ (ch 'a' ≤ ch ':' ∧ ch ':' ≤ ch 'z') := by decide
  have h5 : ¬ (ch 'A' ≤ ch ':' ∧ ch ':' ≤ ch 'Z') := by decide
  have h6 : ¬ ((ch '0' ≤ ch ':' ∧ ch ':' ≤ ch '9') ∨ ch ':' = ch '+' ∨ ch ':' = ch '-' ∨
      ch ':' = ch '.') := by decide
  rw [str_https]
  simp only [getScheme, List.cons_append, List.nil_append, getSchemeLoop, h1, h2, h3, h3', h4, h5,
    h6, true_or, or_self, if_true, if_false]
  simp

theorem Cut_append_of_not_mem (a b : GoString) (sep : UInt8) (h : sep ∉ a) :
    (strings.Cut (a ++ b) sep).1 = a ++ (strings.Cut b sep).1 := by
  induction a with
  | nil => rfl
  | cons c a ih =>
    simp only [List.mem_cons, not_or] at h
    have hc : ¬ c = sep := fun e => h.1 e.symm
    simp [strings.Cut, hc, ih h.2]

theorem writeAuthority_extends (u : URL) (buf : GoString) : buf <+: u.writeAuthority buf := by
  simp only [URL.writeAuthority]
  split
  · split
    · exact List.prefix_rfl
    · split <;> split <;> split <;> simp [List.append_assoc]
  · exact List.prefix_rfl

theorem writePath_extends (u : URL) (buf : GoString) : buf <+: u.writePath buf := by
  simp only [URL.writePath]
  split_ifs <;> simp [List.append_assoc]

/-- The string form of a URL with a scheme starts with the scheme and a
colon. -/
theorem String_scheme (u : URL) (h : u.Scheme ≠ []) :
    ∃ t, u.String = u.Scheme ++ ch ':' :: t := by
  have hp : (u.Scheme ++ [ch ':']) <+: u.String := by
    simp only [URL.String, h, ne_eq, not_false_eq_true, if_true]
    have h1 : (u.Scheme ++ [ch ':']) <+:
        (if u.Opaque ≠ [] then u.Scheme ++ [ch ':'] ++ u.Opaque
          else u.writePath (u.writeAuthority (u.Scheme ++ [ch ':']))) := by
      split
      · simp
      · exact (writeAuthority_extends u _).trans (writePath_extends u _)
    split <;> split <;>
      first
        | exact h1
        | exact h1.trans (by simp [List.append_assoc])
  obtain ⟨t, ht⟩ := hp
  exact ⟨t, by rw [← ht]; simp⟩

theorem Parse_scheme (parseRest : GoString → GoString → Option URL) (scheme t : GoString)
    (hs : scheme = str "http" ∨ scheme = str "https") (u : URL)
    (h : Parse parseRest (scheme ++ ch ':' :: t) = some u) : u.Scheme ≠ [] := by
  have hno : ch '#' ∉ scheme ++ [ch ':'] := by
    rcases hs with hs | hs <;> subst hs <;> decide
  have hcut : (strings.Cut (scheme ++ ch ':' :: t) (ch '#')).1 =
      scheme ++ ch ':' :: (strings.Cut t (ch '#')).1 := by
    have := Cut_append_of_not_mem (scheme ++ [ch ':']) t (ch '#') hno
    simpa using this
  have hget : getScheme (scheme ++ ch ':' :: (strings.Cut t (ch '#')).1) =
      some (scheme, (strings.Cut t (ch '#')).1) := by
    rcases hs with hs | hs <;> subst hs
    · exact getScheme_http _
    · exact getScheme_https _
  have hlow : strings.ToLower scheme = scheme := by
    rcases hs with hs | hs <;> subst hs <;> decide
  have hne : scheme ≠ [] := by
    rcases hs with hs | hs <;> subst hs <;> decide
  have hstar : ∀ x : GoString, scheme ++ ch ':' :: x ≠ str "*" := by
    intro x hx
    have hl : (str "*").length = 1 := by decide
    have hlen := congrArg List.length hx
    have hpos : 0 < scheme.length := List.length_pos.mpr hne
    simp only [List.length_append, List.length_cons, hl] at hlen
    omega
  have hparse : ∀ v, parse parseRest (scheme ++ ch ':' :: (strings.Cut t (ch '#')).1) = some v →
      v.Scheme = scheme := by
    intro v hv
    simp only [parse, hget, hlow] at hv
    split at hv
    · exact absurd hv (by simp)
    · split at hv
      · rename_i hx
        exact absurd hx (hstar _)
      · split at hv
        · exact absurd hv (by simp)
        · simp only [Option.some.injEq] at hv
          rw [← hv]
  simp only [Parse, hcut] at h
  split at h
  · exact absurd h (by simp)
  · rename_i v hv
    have hvs := hparse v hv
    split at h
    · simp only [Option.some.injEq] at h
      rw [← h, hvs]; exact hne
    · simp only [URL.setFragment] at h
      split at h
      · exact absurd h (by simp)
      · simp only [Option.some.injEq] at h
        rw [← h]
        simpa [hvs] using hne

theorem hexEscapeNonASCII_of_ascii (s : GoString) (h : ∀ c ∈ s, c < 128) :
    http.hexEscapeNonASCII s = s := by
  induction s with
  | nil => rfl
  | cons c s ih =>
    have hc : ¬ c ≥ 128 := by
      have := h c (List.mem_cons_self _ _)
      exact UInt8.not_le.mpr this
    have ih' := ih (fun x hx => h x (List.mem_cons_of_mem _ hx))
    simp only [http.hexEscapeNonASCII, List.flatMap_cons, hc, if_false] at ih' ⊢
    rw [ih']
    rfl

/-- A target with the scheme `http` or `https` is sent as it is, except for
the escaping of its non-ASCII bytes, with the status code given. -/
theorem Redirect_of_scheme (parseRest : GoString → GoString → Option URL)
    (makeAbsolute : GoString → GoString → GoString) (w : http.ResponseWriter)
    (r : http.Request) (scheme t : GoString) (code : Int)
    (hs : scheme = str "http" ∨ scheme = str "https") (hw : w.wroteHeader = false) :
    (http.Redirect parseRest makeAbsolute w r (scheme ++ ch ':' :: t) code).Code = code ∧
    (http.Redirect parseRest makeAbsolute w r (scheme ++ ch ':' :: t) code).Header.Get
        (str "Location") = http.hexEscapeNonASCII (scheme ++ ch ':' :: t) := by
  have htarget : (match Parse parseRest (scheme ++ ch ':' :: t) with
      | some u =>
        if u.Scheme = [] ∧ u.Host = [] then
          makeAbsolute (if r.URL.Path = [] then str "/" else r.URL.Path) (scheme ++ ch ':' :: t)
        else scheme ++ ch ':' :: t
      | none => scheme ++ ch ':' :: t) = scheme ++ ch ':' :: t := by
    split
    · rename_i u hu
      have := Parse_scheme parseRest scheme t hs u hu
      simp [this]
    · rfl
  have hkey : ¬ str "Content-Type" = str "Location" := by decide
  simp only [http.Redirect, htarget]
  split <;> split <;>
    simp [http.ResponseWriter.WriteHeader, http.ResponseWriter.Write, hw, http.Header.Get,
      http.Header.Set, Values.index_assign, hkey]

/-- C10, as amended: for every request, written to a response writer whose
status is not yet written, `redirectHandler` answers with the status code
302 and a Location header that is the string form of `redirectURL` applied
to the request, with options built from `targetHost`, `hostQueryParam` and
the effective always-HTTPS flag, in which every byte from 0x80 on is
replaced by `%` and its two lower-case hexadecimal digits; the header is
the string form itself when that holds ASCII bytes only. -/
theorem redirectHandler_response (parseRest : GoString → GoString → Option URL)
    (makeAbsolute : GoString → GoString → GoString) (g : Globals) (now : Time)
    (stdout : List logEntry) (resp : http.ResponseWriter) (req : http.Request)
    (hw : resp.wroteHeader = false) :
    (redirectHandler parseRest makeAbsolute g now stdout resp req).1.Code = 302 ∧
    (redirectHandler parseRest makeAbsolute g now stdout resp req).1.Header.Get (str "Location") =
      http.hexEscapeNonASCII (redirectURL req
        { TargetHost := g.targetHost
          HostQueryParam := g.hostQueryParam
          AlwaysHTTPS := g.alwaysHTTPS ||
            decide (req.Header.Get (str "X-Forwarded-Proto") = str "https") }).String ∧
    ((∀ c ∈ (redirectURL req
        { TargetHost := g.targetHost
          HostQueryParam := g.hostQueryParam
          AlwaysHTTPS := g.alwaysHTTPS ||
            decide (req.Header.Get (str "X-Forwarded-Proto") = str "https") }).String,
        c < 128) →
      (redirectHandler parseRest makeAbsolute g now stdout resp req).1.Header.Get
          (str "Location") =
        (redirectURL req
          { TargetHost := g.targetHost
            HostQueryParam := g.hostQueryParam
            AlwaysHTTPS := g.alwaysHTTPS ||
              decide (req.Header.Get (str "X-Forwarded-Proto") = str "https") }).String) := by
  generalize hopt : redirectOptions.mk g.targetHost g.hostQueryParam
      (g.alwaysHTTPS || decide (req.Header.Get (str "X-Forwarded-Proto") = str "https")) =
    options
  have hscheme : (redirectURL req options).Scheme = str "http" ∨
      (redirectURL req options).Scheme = str "https" := by
    rw [redirectURL_scheme_eq]
    split
    · exact Or.inr rfl
    · exact Or.inl rfl
  have hne : (redirectURL req options).Scheme ≠ [] := by
    rcases hscheme with h | h <;> rw [h] <;> decide
  obtain ⟨t, ht⟩ := String_scheme _ hne
  have hred := Redirect_of_scheme parseRest makeAbsolute resp req _ t http.StatusFound hscheme hw
  rw [← ht] at hred
  have hfst : (redirectHandler parseRest makeAbsolute g now stdout resp req).1 =
      http.Redirect parseRest makeAbsolute resp req (redirectURL req options).String
        http.StatusFound := by
    rw [← hopt]; rfl
  rw [hfst]
  refine ⟨hred.1, hred.2, fun hascii => ?_⟩
  rw [hred.2, hexEscapeNonASCII_of_ascii _ hascii]

/-- C10, witness: the request `http://test.example.com?q=1` with targetHost
`example.org` and hostQueryParam `via` is answered with 302 and the Location
`http://test.example.org?q=1&via=test.example.com`. -/
theorem redirectHandler_response_witness :
    (redirectHandler (fun _ _ => none) (fun _ t => t) ⟨str "example.org", str "via", false⟩ 0 []
        newRecorder (newRequest (str "test.example.com") [] (str "q=1") [])).1.Code = 302 ∧
    (redirectHandler (fun _ _ => none) (fun _ t => t) ⟨str "example.org", str "via", false⟩ 0 []
        newRecorder (newRequest (str "test.example.com") [] (str "q=1") [])).1.Header.Get
          (str "Location") = str "http://test.example.org?q=1&via=test.example.com" :=
  ⟨(redirectHandler_response _ _ _ _ _ _ _ rfl).1,
    (redirectHandler_response _ _ _ _ _ _ _ rfl).2.1.trans (by decide)⟩

/-- C10, as stated, fails: with an empty hostQueryParam the raw query of the
request is passed on as it is; for the query `q=` followed by the byte 0xE9
the string form of the redirect URL ends in that byte, and the Location
header ends in `%e9`. -/
theorem redirectHandler_response_counterexample :
    (redirectHandler (fun _ _ => none) (fun _ t => t) ⟨str "example.org", [], false⟩ 0 []
        newRecorder (newRequest (str "test.example.com") (str "/") (str "q=" ++ [233]) [])).1.Code
      = 302 ∧
    (redirectHandler (fun _ _ => none) (fun _ t => t) ⟨str "example.org", [], false⟩ 0 []
        newRecorder (newRequest (str "test.example.com") (str "/") (str "q=" ++ [233])
          [])).1.Header.Get (str "Location") = str "http://test.example.org/?q=%e9" ∧
    (redirectURL (newRequest (str "test.example.com") (str "/") (str "q=" ++ [233]) [])
        ⟨str "example.org", [], false⟩).String = str "http://test.example.org/?q=" ++ [233] ∧
    (redirectHandler (fun _ _ => none) (fun _ t => t) ⟨str "example.org", [], false⟩ 0 []
        newRecorder (newRequest (str "test.example.com") (str "/") (str "q=" ++ [233])
          [])).1.Header.Get (str "Location") ≠
      (redirectURL (newRequest (str "test.example.com") (str "/") (str "q=" ++ [233]) [])
        ⟨str "example.org", [], false⟩).String := by
  decide

/-! ## The tests of the repository -/

/-- The expected URLs of `TestRedirectURL`, `TestRedirectURLWithoutScheme`,
`TestRedirectURLWithQueryOption`, `TestRedirectURLWithAlwaysHTTPSOption`,
`TestRedirectURLWithQuery`, `TestRedirectURLWithPort`, `TestRedirectURLWithTLD`,
`TestRedirectURLWithTLDAndPort` and `TestRedirectURLWithTargetHostPort`. -/
theorem tests_redirectURL :
    (redirectURL (newRequest (str "test.example.com") (str "/path") [] [])
      ⟨str "example.org", [], false⟩).String = str "http://test.example.org/path" ∧
    (redirectURL (newRequestPath (str "/path") [] [])
      ⟨str "example.org", [], false⟩).String = str "http://example.example.org/path" ∧
    (redirectURL (newRequest (str "test.example.com") (str "/path") [] [])
      ⟨str "example.org", str "via", false⟩).String =
        str "http://test.example.org/path?via=test.example.com" ∧
    (redirectURL (newRequest (str "test.example.com") (str "/path") [] [])
      ⟨str "example.org", [], true⟩).String = str "https://test.example.org/path" ∧
    (redirectURL (newRequest (str "test.example.com") (str "/path") (str "q=1") [])
      ⟨str "example.org", str "via", false⟩).String =
        str "http://test.example.org/path?q=1&via=test.example.com" ∧
    (redirectURL (newRequest (str "test.example.com:8080") (str "/path") [] [])
      ⟨str "example.org", str "via", false⟩).String =
        str "http://test.example.org/path?via=test.example.com%3A8080" ∧
    (redirectURL (newRequest (str "localhost") (str "/path") [] [])
      ⟨str "example.org", str "via", false⟩).String =
        str "http://localhost.example.org/path?via=localhost" ∧
    (redirectURL (newRequest (str "localhost:8080") (str "/path") [] [])
      ⟨str "example.org", str "via", false⟩).String =
        str "http://localhost.example.org/path?via=localhost%3A8080" ∧
    (redirectURL (newRequest (str "test.example.com") (str "/path") [] [])
      ⟨str "example.org:8080", str "via", false⟩).String =
        str "http://test.example.org:8080/path?via=test.example.com" := by
  decide

/-- A pair of the raw query that `url.ParseQuery` rejects (here a `%` that is
not followed by two hexadecimal digits) is no parameter of the request's
query, and is not in the output query either. -/
theorem redirectURL_query_malformed_pair :
    (newRequest (str "test.example.com") (str "/path") (str "bad=%zz&q=1") []).URL.Query =
      [(str "q", [str "1"])] ∧
    (redirectURL (newRequest (str "test.example.com") (str "/path") (str "bad=%zz&q=1") [])
      ⟨str "example.org", str "via", false⟩).RawQuery = str "q=1&via=test.example.com" := by
  decide

/-! ## More on `net.SplitHostPort` -/

theorem IndexByte_cons_ne (x c : UInt8) (s : GoString) (hx : ¬ x = c) :
    strings.IndexByte (x :: s) c =
      if strings.IndexByte s c < 0 then -1 else strings.IndexByte s c + 1 := by
  simp only [strings.IndexByte, hx, if_false]

theorem IndexByte_append_sep (a b : GoString) (c : UInt8) (ha : c ∉ a) :
    strings.IndexByte (a ++ c :: b) c = a.length := by
  induction a with
  | nil => simp [strings.IndexByte]
  | cons x a ih =>
    simp only [List.mem_cons, not_or] at ha
    have hx : ¬ x = c := fun e => ha.1 e.symm
    have hn : ¬ ((a.length : Int) < 0) := by omega
    rw [List.cons_append, IndexByte_cons_ne _ _ _ hx, ih ha.2]
    simp [hn]

theorem sliceFrom_cast (s : GoString) (n : Nat) : sliceFrom s (n : Int) = s.drop n := by
  simp [sliceFrom]

theorem slice_cast (s : GoString) (a b : Nat) :
    slice s (a : Int) (b : Int) = (s.drop a).take (b - a) := by
  simp [slice]

/-- On every error `net.SplitHostPort` returns the empty host. -/
theorem SplitHostPort_error_host (s : GoString) (h : (net.SplitHostPort s).2.2 ≠ none) :
    (net.SplitHostPort s).1 = [] := by
  simp only [net.SplitHostPort, net.splitHostPortTail] at h ⊢
  split_ifs at h ⊢ <;> simp_all

/-- The host that `net.SplitHostPort` returns is a contiguous part of its
argument. -/
theorem SplitHostPort_host_contained (s : GoString) : (net.SplitHostPort s).1 <:+: s := by
  have hs : ∀ lo hi : Int, slice s lo hi <:+: s := by
    intro lo hi
    exact (List.take_prefix _ _).isInfix.trans (List.drop_suffix _ _).isInfix
  simp only [net.SplitHostPort, net.splitHostPortTail]
  split_ifs <;> first | exact List.nil_infix | exact List.nil_infix _ | exact hs _ _

/-- Without a leading `[`, the host that `net.SplitHostPort` returns holds no
colon. -/
theorem SplitHostPort_host_no_colon (s : GoString) (h : s.head? ≠ some (ch '[')) :
    ch ':' ∉ (net.SplitHostPort s).1 := by
  simp only [net.SplitHostPort, net.splitHostPortTail, h, if_false]
  split_ifs with h1 h2 h3 h4
  · simp
  · simp
  · simp
  · simp
  · intro hm
    exact h2 ((IndexByte_nonneg_iff _ _).mpr hm)

/-- The form `[host]:port`: the host is returned without the brackets. -/
theorem SplitHostPort_bracket (h p : GoString) (ho : ch '[' ∉ h) (hc : ch ']' ∉ h)
    (hp1 : ch ':' ∉ p) (hp2 : ch '[' ∉ p) (hp3 : ch ']' ∉ p) :
    net.SplitHostPort (ch '[' :: h ++ ch ']' :: ch ':' :: p) = (h, p, none) := by
  have e1 : ch '[' :: h ++ ch ']' :: ch ':' :: p = (ch '[' :: h ++ [ch ']']) ++ ch ':' :: p := by
    simp
  have e2 : ch '[' :: h ++ ch ']' :: ch ':' :: p = (ch '[' :: h ++ [ch ']', ch ':']) ++ p := by
    simp
  have hi : strings.LastIndexByte (ch '[' :: h ++ ch ']' :: ch ':' :: p) (ch ':') =
      ((h.length + 2 : Nat) : Int) := by
    rw [e1, LastIndexByte_append_sep _ _ _ hp1]
    simp only [List.length_cons, List.length_append, List.length_nil]
  have hnc : ch ']' ∉ ch '[' :: h := by
    simp only [List.mem_cons, not_or]; exact ⟨by decide, hc⟩
  have hend : strings.IndexByte (ch '[' :: h ++ ch ']' :: ch ':' :: p) (ch ']') =
      ((h.length + 1 : Nat) : Int) := by
    have := IndexByte_append_sep (ch '[' :: h) (ch ':' :: p) (ch ']') hnc
    simpa using this
  have hslice : slice (ch '[' :: h ++ ch ']' :: ch ':' :: p) ((1 : Nat) : Int)
      ((h.length + 1 : Nat) : Int) = h := by
    rw [slice_cast]; simp
  have hj : sliceFrom (ch '[' :: h ++ ch ']' :: ch ':' :: p) ((1 : Nat) : Int) =
      h ++ ch ']' :: ch ':' :: p := by
    rw [sliceFrom_cast]; simp
  have hk : sliceFrom (ch '[' :: h ++ ch ']' :: ch ':' :: p) ((h.length + 2 : Nat) : Int) =
      ch ':' :: p := by
    rw [sliceFrom_cast, e1]
    exact List.drop_left' (by simp)
  have hport : sliceFrom (ch '[' :: h ++ ch ']' :: ch ':' :: p) ((h.length + 3 : Nat) : Int) =
      p := by
    rw [sliceFrom_cast, e2]
    exact List.drop_left' (by simp)
  have h1 : ¬ strings.IndexByte (h ++ ch ']' :: ch ':' :: p) (ch '[') ≥ 0 := by
    intro hge
    have hm := (IndexByte_nonneg_iff _ _).mp hge
    simp only [List.mem_append, List.mem_cons] at hm
    rcases hm with hm | hm | hm | hm
    · exact ho hm
    · exact absurd hm (by decide)
    · exact absurd hm (by decide)
    · exact hp2 hm
  have h2 : ¬ strings.IndexByte (ch ':' :: p) (ch ']') ≥ 0 := by
    intro hge
    have hm := (IndexByte_nonneg_iff _ _).mp hge
    simp only [List.mem_cons] at hm
    rcases hm with hm | hm
    · exact absurd hm (by decide)
    · exact hp3 hm
  have hn1 : ¬ (((h.length + 2 : Nat) : Int) < 0) := by omega
  have hn2 : ¬ (((h.length + 1 : Nat) : Int) < 0) := by omega
  have hn3 : ¬ (((h.length + 1 : Nat) : Int) + 1 =
      ((ch '[' :: h ++ ch ']' :: ch ':' :: p).length : Int)) := by
    simp only [List.length_cons, List.length_append]; omega
  have hn4 : ((h.length + 1 : Nat) : Int) + 1 = ((h.length + 2 : Nat) : Int) := by omega
  have hn5 : ((h.length + 2 : Nat) : Int) + 1 = ((h.length + 3 : Nat) : Int) := by omega
  have hn6 : (1 : Int) = ((1 : Nat) : Int) := rfl
  have hhead : (ch '[' :: h ++ ch ']' :: ch ':' :: p).head? = some (ch '[') := rfl
  simp only [net.SplitHostPort, hi, hn1, if_false, hhead, if_true, hend, hn2, hn3, hn4, hn5,
    net.splitHostPortTail]
  have hn7 : ¬ (((h.length + 2 : Nat) : Int) =
      ((ch '[' :: h ++ ch ']' :: ch ':' :: p).length : Int)) := by
    simp only [List.length_cons, List.length_append]; omega
  rw [hn6, hslice, hj, hk, hport]
  simp only [h1, h2, hn7, if_false]

/-! ## The handler: the scheme of the Location -/

theorem hexEscapeNonASCII_append (a b : GoString) :
    http.hexEscapeNonASCII (a ++ b) = http.hexEscapeNonASCII a ++ http.hexEscapeNonASCII b := by
  simp [http.hexEscapeNonASCII, List.flatMap_append]

theorem hexEscapeNonASCII_scheme (scheme t : GoString)
    (hs : scheme = str "http" ∨ scheme = str "https") :
    http.hexEscapeNonASCII (scheme ++ ch ':' :: t) =
      scheme ++ ch ':' :: http.hexEscapeNonASCII t := by
  have e : scheme ++ ch ':' :: t = (scheme ++ [ch ':']) ++ t := by simp
  have h1 : http.hexEscapeNonASCII (scheme ++ [ch ':']) = scheme ++ [ch ':'] := by
    rcases hs with hs | hs <;> subst hs <;> decide
  rw [e, hexEscapeNonASCII_append, h1]
  simp

/-- The Location header that `http.Redirect` sets for a target with the
scheme `http` or `https`, whatever the state of the response writer. -/
theorem Redirect_Location_of_scheme (parseRest : GoString → GoString → Option URL)
    (makeAbsolute : GoString → GoString → GoString) (w : http.ResponseWriter)
    (r : http.Request) (scheme t : GoString) (code : Int)
    (hs : scheme = str "http" ∨ scheme = str "https") :
    (http.Redirect parseRest makeAbsolute w r (scheme ++ ch ':' :: t) code).Header.Get
        (str "Location") = http.hexEscapeNonASCII (scheme ++ ch ':' :: t) := by
  have hkey : ¬ str "Content-Type" = str "Location" := by decide
  cases hP : Parse parseRest (scheme ++ ch ':' :: t) with
  | none =>
    simp only [http.Redirect, hP, http.ResponseWriter.WriteHeader, http.ResponseWriter.Write,
      http.Header.Get, http.Header.Set]
    split_ifs <;> simp [Values.index_assign, hkey]
  | some u =>
    have hu := Parse_scheme parseRest scheme t hs u hP
    simp only [http.Redirect, hP, hu, false_and, if_false, http.ResponseWriter.WriteHeader,
      http.ResponseWriter.Write, http.Header.Get, http.Header.Set]
    split_ifs <;> simp [Values.index_assign, hkey]

/-- C11: the scheme of the Location that `redirectHandler` sends, as
`getScheme` reads it, is `https` when the variable `alwaysHTTPS` is set or
the `X-Forwarded-Proto` header of the request is `https`, and `http`
otherwise. -/
theorem redirectHandler_location_scheme (parseRest : GoString → GoString → Option URL)
    (makeAbsolute : GoString → GoString → GoString) (g : Globals) (now : Time)
    (stdout : List logEntry) (resp : http.ResponseWriter) (req : http.Request) :
    (getScheme ((redirectHandler parseRest makeAbsolute g now stdout resp req).1.Header.Get
        (str "Location"))).map Prod.fst =
      some (if g.alwaysHTTPS = true ∨ req.Header.Get (str "X-Forwarded-Proto") = str "https"
        then str "https" else str "http") := by
  generalize hopt : redirectOptions.mk g.targetHost g.hostQueryParam
      (g.alwaysHTTPS || decide (req.Header.Get (str "X-Forwarded-Proto") = str "https")) =
    options
  have hfst : (redirectHandler parseRest makeAbsolute g now stdout resp req).1 =
      http.Redirect parseRest makeAbsolute resp req (redirectURL req options).String
        http.StatusFound := by
    rw [← hopt]; rfl
  have hflag : options.AlwaysHTTPS = true ↔
      (g.alwaysHTTPS = true ∨ req.Header.Get (str "X-Forwarded-Proto") = str "https") := by
    rw [← hopt]; simp
  have hsch := redirectURL_scheme_eq req options
  have hscheme : (redirectURL req options).Scheme = str "http" ∨
      (redirectURL req options).Scheme = str "https" := by
    rw [hsch]; split
    · exact Or.inr rfl
    · exact Or.inl rfl
  have hne : (redirectURL req options).Scheme ≠ [] := by
    rcases hscheme with h | h <;> rw [h] <;> decide
  obtain ⟨t, ht⟩ := String_scheme _ hne
  rw [hfst, ht, Redirect_Location_of_scheme _ _ _ _ _ t _ hscheme,
    hexEscapeNonASCII_scheme _ _ hscheme]
  by_cases hf : options.AlwaysHTTPS = true
  · have h1 : (redirectURL req options).Scheme = str "https" := by rw [hsch]; simp [hf]
    rw [h1, getScheme_https]
    simp [hflag.mp hf]
  · have h1 : (redirectURL req options).Scheme = str "http" := by rw [hsch]; simp [hf]
    have h2 : ¬ (g.alwaysHTTPS = true ∨
        req.Header.Get (str "X-Forwarded-Proto") = str "https") := fun h => hf (hflag.mpr h)
    rw [h1, getScheme_http, if_neg h2]
    rfl

/-- C11, witness: with `alwaysHTTPS` false and the header
`X-Forwarded-Proto: https` the Location is
`https://test.example.org?via=test.example.com`
(`TestRedirectHandlerResponseWithForwardedProto`); with the header `HTTPS`
in upper case, or without it, the scheme is `http`. -/
theorem redirectHandler_location_scheme_witness :
    (redirectHandler (fun _ _ => none) (fun _ t => t) ⟨str "example.org", str "via", false⟩ 0 []
        newRecorder (newRequest (str "test.example.com") [] []
          [(str "X-Forwarded-Proto", [str "https"])])).1.Header.Get (str "Location") =
      str "https://test.example.org?via=test.example.com" ∧
    (redirectHandler (fun _ _ => none) (fun _ t => t) ⟨str "example.org", str "via", false⟩ 0 []
        newRecorder (newRequest (str "test.example.com") [] []
          [(str "X-Forwarded-Proto", [str "HTTPS"])])).1.Header.Get (str "Location") =
      str "http://test.example.org?via=test.example.com" ∧
    (getScheme ((redirectHandler (fun _ _ => none) (fun _ t => t)
        ⟨str "example.org", str "via", false⟩ 0 [] newRecorder
        (newRequest (str "test.example.com") [] []
          [(str "X-Forwarded-Proto", [str "https"])])).1.Header.Get (str "Location"))).map
        Prod.fst = some (str "https") :=
  ⟨by decide, by decide, (redirectHandler_location_scheme _ _ _ _ _ _ _).trans (by decide)⟩

/-! ## The handler: the log entry -/

/-- The standard output after the handler: the entry built from the request
is appended to it. -/
theorem redirectHandler_stdout (parseRest : GoString → GoString → Option URL)
    (makeAbsolute : GoString → GoString → GoString) (g : Globals) (now : Time)
    (stdout : List logEntry) (resp : http.ResponseWriter) (req : http.Request) :
    (redirectHandler parseRest makeAbsolute g now stdout resp req).2 =
      stdout ++
        [{ Time := now
           RemoteIP := (net.SplitHostPort req.RemoteAddr).1
           Method := req.Method
           Host := req.Host
           RequestURI := req.URL.RequestURI
           Referrer := req.Header.Get (str "Referer")
           UserAgent := req.Header.Get (str "User-Agent")
           ForwardedFor := req.Header.Get (str "X-Forwarded-For")
           ForwardedProto := req.Header.Get (str "X-Forwarded-Proto") }] :=
  rfl

/-- The status code that the handler writes to a response writer without a
status. -/
theorem redirectHandler_status (parseRest : GoString → GoString → Option URL)
    (makeAbsolute : GoString → GoString → GoString) (g : Globals) (now : Time)
    (stdout : List logEntry) (resp : http.ResponseWriter) (req : http.Request)
    (hw : resp.wroteHeader = false) :
    (redirectHandler parseRest makeAbsolute g now stdout resp req).1.Code = 302 := by
  generalize hopt : redirectOptions.mk g.targetHost g.hostQueryParam
      (g.alwaysHTTPS || decide (req.Header.Get (str "X-Forwarded-Proto") = str "https")) =
    options
  have hfst : (redirectHandler parseRest makeAbsolute g now stdout resp req).1 =
      http.Redirect parseRest makeAbsolute resp req (redirectURL req options).String
        http.StatusFound := by
    rw [← hopt]; rfl
  have hscheme : (redirectURL req options).Scheme = str "http" ∨
      (redirectURL req options).Scheme = str "https" := by
    rw [redirectURL_scheme_eq]; split
    · exact Or.inr rfl
    · exact Or.inl rfl
  have hne : (redirectURL req options).Scheme ≠ [] := by
    rcases hscheme with h | h <;> rw [h] <;> decide
  obtain ⟨t, ht⟩ := String_scheme _ hne
  rw [hfst, ht]
  exact (Redirect_of_scheme parseRest makeAbsolute resp req _ t http.StatusFound hscheme hw).1

/-- C12: the RemoteIP of the entry that `redirectHandler` logs is the host of
the remote address, without port and brackets, when the address is
`host:port` (host and port without `:`, `[`, `]`) or `[host]:port` (host
without brackets, port without `:`, `[`, `]`); when `net.SplitHostPort`
fails on the address the RemoteIP is empty, and the answer to a response
writer without a status is still the status 302. -/
theorem redirectHandler_remoteIP (parseRest : GoString → GoString → Option URL)
    (makeAbsolute : GoString → GoString → GoString) (g : Globals) (now : Time)
    (stdout : List logEntry) (resp : http.ResponseWriter) (req : http.Request) :
    (∀ h p : GoString, req.RemoteAddr = h ++ ch ':' :: p →
      ch ':' ∉ h → ch '[' ∉ h → ch ']' ∉ h → ch ':' ∉ p → ch '[' ∉ p → ch ']' ∉ p →
      (redirectHandler parseRest makeAbsolute g now stdout resp req).2.getLast?.map
        logEntry.RemoteIP = some h) ∧
    (∀ h p : GoString, req.RemoteAddr = ch '[' :: h ++ ch ']' :: ch ':' :: p →
      ch '[' ∉ h → ch ']' ∉ h → ch ':' ∉ p → ch '[' ∉ p → ch ']' ∉ p →
      (redirectHandler parseRest makeAbsolute g now stdout resp req).2.getLast?.map
        logEntry.RemoteIP = some h) ∧
    ((net.SplitHostPort req.RemoteAddr).2.2 ≠ none →
      (redirectHandler parseRest makeAbsolute g now stdout resp req).2.getLast?.map
        logEntry.RemoteIP = some [] ∧
      (resp.wroteHeader = false →
        (redirectHandler parseRest makeAbsolute g now stdout resp req).1.Code = 302)) := by
  have hlast : (redirectHandler parseRest makeAbsolute g now stdout resp req).2.getLast?.map
      logEntry.RemoteIP = some (net.SplitHostPort req.RemoteAddr).1 := by
    rw [redirectHandler_stdout]; simp
  refine ⟨?_, ?_, ?_⟩
  · intro h p haddr h1 h2 h3 p1 p2 p3
    have ho : ch '[' ∉ h ++ ch ':' :: p := by
      simp only [List.mem_append, List.mem_cons, not_or]
      exact ⟨h2, by decide, p2⟩
    have hc : ch ']' ∉ h ++ ch ':' :: p := by
      simp only [List.mem_append, List.mem_cons, not_or]
      exact ⟨h3, by decide, p3⟩
    rw [hlast, haddr, SplitHostPort_host_port h p h1 p1 ho hc]
  · intro h p haddr h2 h3 p1 p2 p3
    rw [hlast, haddr, SplitHostPort_bracket h p h2 h3 p1 p2 p3]
  · intro herr
    refine ⟨?_, fun hw => ?_⟩
    · rw [hlast, SplitHostPort_error_host _ herr]
    · exact redirectHandler_status parseRest makeAbsolute g now stdout resp req hw

/-- C12, witness: the remote address `[::1]:1234` is logged as `::1`
(`TestRedirectHandlerOutputWithIPv6`), `192.0.2.1:1234` as `192.0.2.1`, and
for the address `localhost`, without a port, the RemoteIP is empty and the
status is 302. -/
theorem redirectHandler_remoteIP_witness :
    (redirectHandler (fun _ _ => none) (fun _ t => t) ⟨str "example.org", str "via", false⟩ 0 []
        newRecorder { newRequest (str "test.example.com") [] [] [] with
          RemoteAddr := str "[::1]:1234" }).2.getLast?.map logEntry.RemoteIP =
      some (str "::1") ∧
    (redirectHandler (fun _ _ => none) (fun _ t => t) ⟨str "example.org", str "via", false⟩ 0 []
        newRecorder (newRequest (str "test.example.com") [] [] [])).2.getLast?.map
          logEntry.RemoteIP = some (str "192.0.2.1") ∧
    (redirectHandler (fun _ _ => none) (fun _ t => t) ⟨str "example.org", str "via", false⟩ 0 []
        newRecorder { newRequest (str "test.example.com") [] [] [] with
          RemoteAddr := str "localhost" }).2.getLast?.map logEntry.RemoteIP = some [] ∧
    (redirectHandler (fun _ _ => none) (fun _ t => t) ⟨str "example.org", str "via", false⟩ 0 []
        newRecorder { newRequest (str "test.example.com") [] [] [] with
          RemoteAddr := str "localhost" }).1.Code = 302 :=
  ⟨(redirectHandler_remoteIP _ _ _ _ _ _ _).2.1 (str "::1") (str "1234") (by decide) (by decide)
      (by decide) (by decide) (by decide) (by decide),
    (redirectHandler_remoteIP _ _ _ _ _ _ _).1 (str "192.0.2.1") (str "1234") (by decide)
      (by decide) (by decide) (by decide) (by decide) (by decide) (by decide),
    ((redirectHandler_remoteIP _ _ _ _ _ _ _).2.2 (by decide)).1,
    ((redirectHandler_remoteIP _ _ _ _ _ _ _).2.2 (by decide)).2 (by decide)⟩

/-! ## The JSON form of the log entry -/

/-- C14, the code at the request of `TestRedirectHandlerOutput`: the entry
logged has the nine fields of `logEntry`, none of which holds the
`X-Forwarded-Host` header; the same entry is logged when the header has
another value. -/
theorem redirectHandler_log_forwarded_host :
    (redirectHandler (fun _ _ => none) (fun _ t => t) ⟨str "example.org", str "via", false⟩ 7 []
        newRecorder (newRequest (str "test.example.com") [] (str "q=1")
          [(str "X-Forwarded-Proto", [str "https"]),
           (str "X-Forwarded-Host", [str "test.example.com"]),
           (str "X-Forwarded-For", [str "127.0.0.1"])])).2 =
      [{ Time := 7
         RemoteIP := str "192.0.2.1"
         Method := str "GET"
         Host := str "test.example.com"
         RequestURI := str "/?q=1"
         Referrer := []
         UserAgent := []
         ForwardedFor := str "127.0.0.1"
         ForwardedProto := str "https" }] ∧
    (redirectHandler (fun _ _ => none) (fun _ t => t) ⟨str "example.org", str "via", false⟩ 7 []
        newRecorder (newRequest (str "test.example.com") [] (str "q=1")
          [(str "X-Forwarded-Proto", [str "https"]),
           (str "X-Forwarded-Host", [str "test.example.com"]),
           (str "X-Forwarded-For", [str "127.0.0.1"])])).2 =
    (redirectHandler (fun _ _ => none) (fun _ t => t) ⟨str "example.org", str "via", false⟩ 7 []
        newRecorder (newRequest (str "test.example.com") [] (str "q=1")
          [(str "X-Forwarded-Proto", [str "https"]),
           (str "X-Forwarded-Host", [str "other.example.net"]),
           (str "X-Forwarded-For", [str "127.0.0.1"])])).2 := by
  decide

/-- C15, the code at the request of `TestRedirectURLWithForwardedHost`: with
the Host `example.com` and the header `X-Forwarded-Host: test.example.com`
the URL returned is `http://example.example.org/path?via=example.com`, built
from the Host, and not the `http://test.example.org/path?via=test.example.com`
that the test expects. -/
theorem redirectURL_forwarded_host :
    (redirectURL (newRequestPath (str "/path") [] [(str "X-Forwarded-Host",
        [str "test.example.com"])]) ⟨str "example.org", str "via", false⟩).String =
      str "http://example.example.org/path?via=example.com" ∧
    (redirectURL (newRequestPath (str "/path") [] [(str "X-Forwarded-Host",
        [str "test.example.com"])]) ⟨str "example.org", str "via", false⟩).String ≠
      str "http://test.example.org/path?via=test.example.com" := by
  decide

/-- C16: `redirectURL` is a function of the request URL, the request Host and
the options: two requests with the same URL and the same Host give the same
URL, whatever their method, headers and remote address. -/
theorem redirectURL_depends_on_URL_Host (req1 req2 : http.Request) (options : redirectOptions)
    (hURL : req1.URL = req2.URL) (hHost : req1.Host = req2.Host) :
    redirectURL req1 options = redirectURL req2 options := by
  simp only [redirectURL, hURL, hHost]

/-- C16, witness: a `GET` without headers and a `POST` from another address
with `X-Forwarded-Host` and `X-Forwarded-Proto` headers, for the same URL and
Host, give the same URL. -/
theorem redirectURL_depends_on_URL_Host_witness :
    redirectURL (newRequest (str "test.example.com") (str "/path") (str "q=1") [])
        ⟨str "example.org", str "via", false⟩ =
      redirectURL { newRequest (str "test.example.com") (str "/path") (str "q=1")
          [(str "X-Forwarded-Host", [str "other.example.net"]),
           (str "X-Forwarded-Proto", [str "https"])] with
          Method := str "POST", RemoteAddr := str "[::1]:1234" }
        ⟨str "example.org", str "via", false⟩ :=
  redirectURL_depends_on_URL_Host _ _ _ rfl rfl

/-! ## The time of the log entry -/

/-- C17, as amended: the Time of the entry that `redirectHandler` writes is
the clock value read when the entry is built, before the redirect response
is constructed, whatever the clock shows when the entry is written: the
standard output, as pairs of the time of writing and the Time written, gains
the pair of `emission` and `start`. -/
theorem redirectHandlerTimed_time (parseRest : GoString → GoString → Option URL)
    (makeAbsolute : GoString → GoString → GoString) (g : Globals) (start emission : Time)
    (stdout : List (Time × logEntry)) (resp : http.ResponseWriter) (req : http.Request) :
    (redirectHandlerTimed parseRest makeAbsolute g start emission stdout resp req).2.map
        (fun w => (w.1, w.2.Time)) =
      stdout.map (fun w => (w.1, w.2.Time)) ++ [(emission, start)] := by
  simp only [redirectHandlerTimed, redirectHandler_stdout, List.nil_append, List.map_cons,
    List.map_nil, List.map_append]

/-- C17, as stated, fails: with the clock at 1 when the entry is built and at
2 when it is written, the entry written at 2 has the Time 1. -/
theorem redirectHandlerTimed_time_counterexample :
    ((redirectHandlerTimed (fun _ _ => none) (fun _ t => t) ⟨str "example.org", str "via", false⟩
        1 2 [] newRecorder (newRequest (str "test.example.com") [] (str "q=1") [])).2.map
      (fun w => (w.1, w.2.Time))) = [(2, 1)] := by
  decide

/-! ## The leaf of the output host -/

theorem specFirstLabel_no_dot (host : GoString) : ch '.' ∉ specFirstLabel host := by
  intro h
  have := List.mem_takeWhile_imp h
  simp at this

theorem specFirstLabel_contained (host : GoString) : specFirstLabel host <:+: host :=
  (List.takeWhile_prefix _).isInfix

theorem specFirstLabel_head (host : GoString) (h : host.head? ≠ some (ch '[')) :
    (specFirstLabel host).head? ≠ some (ch '[') := by
  cases host with
  | nil => simp [specFirstLabel]
  | cons x s =>
    simp only [specFirstLabel, List.takeWhile_cons]
    split
    · simpa using h
    · simp

theorem specFirstLabel_append (label rest : GoString) (h : ch '.' ∉ label) :
    specFirstLabel (label ++ ch '.' :: rest) = label := by
  rw [specFirstLabel, ← Split_head, Split_append_sep label rest _ h]
  rfl

/-- The leaf that `redirectURL` puts in front of the target host: the first
label, or what `net.SplitHostPort` makes of it when it holds a colon. -/
theorem redirectURL_leaf_cases (req : http.Request) (options : redirectOptions)
    (hH : req.Host ≠ []) (hT : options.TargetHost ≠ []) :
    ∃ p, (redirectURL req options).Host = p ++ str "." ++ options.TargetHost ∧
      ((p = specFirstLabel req.Host ∧ ch ':' ∉ specFirstLabel req.Host) ∨
       (p = (net.SplitHostPort (specFirstLabel req.Host)).1 ∧
          ch ':' ∈ specFirstLabel req.Host)) := by
  rw [redirectURL_host_eq req options hH hT]
  by_cases hm : ch ':' ∈ specFirstLabel req.Host
  · have hidx : strings.IndexByte (specFirstLabel req.Host) (ch ':') ≥ 0 :=
      (IndexByte_nonneg_iff _ _).mpr hm
    exact ⟨_, by simp only [hidx, if_true], Or.inr ⟨rfl, hm⟩⟩
  · have hidx : ¬ strings.IndexByte (specFirstLabel req.Host) (ch ':') ≥ 0 :=
      fun h => hm ((IndexByte_nonneg_iff _ _).mp h)
    exact ⟨_, by simp only [hidx, if_false], Or.inl ⟨rfl, hm⟩⟩

theorem exists_last_split (s : GoString) (c : UInt8) (h : c ∈ s) :
    ∃ a b, s = a ++ c :: b ∧ c ∉ b := by
  induction s with
  | nil => exact absurd h (List.not_mem_nil _)
  | cons x s ih =>
    by_cases hs : c ∈ s
    · obtain ⟨a, b, hab, hb⟩ := ih hs
      exact ⟨x :: a, b, by rw [hab]; rfl, hb⟩
    · have hx : c = x := by
        rcases List.mem_cons.mp h with h | h
        · exact h
        · exact absurd h hs
      exact ⟨[], s, by rw [hx]; rfl, hs⟩

/-- Two or more colons and no leading `[`: `net.SplitHostPort` fails. -/
theorem SplitHostPort_too_many_colons (s : GoString) (hb : s.head? ≠ some (ch '['))
    (hc : 2 ≤ s.count (ch ':')) :
    (net.SplitHostPort s).2.2 = some net.AddrError.tooManyColons := by
  have hm : ch ':' ∈ s := List.count_pos_iff.mp (by omega)
  obtain ⟨a, b, hab, hnb⟩ := exists_last_split s _ hm
  have hcb : b.count (ch ':') = 0 := List.count_eq_zero.mpr hnb
  have hca : 0 < a.count (ch ':') := by
    rw [hab] at hc
    simp only [List.count_append, List.count_cons_self, hcb] at hc
    omega
  have hma : ch ':' ∈ a := List.count_pos_iff.mp hca
  have hi : strings.LastIndexByte s (ch ':') = a.length := by
    rw [hab]; exact LastIndexByte_append_sep a b _ hnb
  have hn : ¬ ((a.length : Int) < 0) := by omega
  have hslice : slice s 0 (a.length : Int) = a := by
    rw [hab]; simp [slice]
  have hidx : strings.IndexByte a (ch ':') ≥ 0 := (IndexByte_nonneg_iff _ _).mpr hma
  simp only [net.SplitHostPort, hi, hn, if_false, hb, hslice, hidx, if_true]

/-- A bracketed literal without a port: `net.SplitHostPort` fails. -/
theorem SplitHostPort_bracket_no_port (h : GoString) (hc : ch ']' ∉ h) (hm : ch ':' ∈ h) :
    (net.SplitHostPort (ch '[' :: h ++ [ch ']'])).2.2 = some net.AddrError.missingPort := by
  have hms : ch ':' ∈ ch '[' :: h ++ [ch ']'] := by simp [hm]
  have hi : ¬ strings.LastIndexByte (ch '[' :: h ++ [ch ']']) (ch ':') < 0 := by
    have := (LastIndexByte_nonneg_iff _ _).mpr hms
    omega
  have hnc : ch ']' ∉ ch '[' :: h := by
    simp only [List.mem_cons, not_or]; exact ⟨by decide, hc⟩
  have hend : strings.IndexByte (ch '[' :: h ++ [ch ']']) (ch ']') =
      ((h.length + 1 : Nat) : Int) := by
    have := IndexByte_append_sep (ch '[' :: h) [] (ch ']') hnc
    simpa using this
  have hn2 : ¬ (((h.length + 1 : Nat) : Int) < 0) := by omega
  have hlen : ((h.length + 1 : Nat) : Int) + 1 = ((ch '[' :: h ++ [ch ']']).length : Int) := by
    simp only [List.length_cons, List.length_append, List.length_nil]; omega
  have hhead : (ch '[' :: h ++ [ch ']']).head? = some (ch '[') := rfl
  simp only [net.SplitHostPort, hi, if_false, hhead, if_true, hend, hn2, hlen]

/-- C18: for a non-empty targetHost and a Host whose first label holds a
colon and is not split by `net.SplitHostPort`, `redirectURL` returns the
host `.` + targetHost: the error is dropped and the leaf is empty. -/
theorem redirectURL_host_split_error (req : http.Request) (options : redirectOptions)
    (hT : options.TargetHost ≠ []) (hcolon : ch ':' ∈ specFirstLabel req.Host)
    (herr : (net.SplitHostPort (specFirstLabel req.Host)).2.2 ≠ none) :
    (redirectURL req options).Host = str "." ++ options.TargetHost := by
  have hH : req.Host ≠ [] := by
    intro h
    rw [h] at hcolon
    simp [specFirstLabel] at hcolon
  have hidx : strings.IndexByte (specFirstLabel req.Host) (ch ':') ≥ 0 :=
    (IndexByte_nonneg_iff _ _).mpr hcolon
  rw [redirectURL_host_eq req options hH hT]
  simp only [hidx, if_true, SplitHostPort_error_host _ herr, List.nil_append]

/-- C18, witness: the Hosts `a:b:c` and `[::1]` both give the host
`.example.org`. -/
theorem redirectURL_host_split_error_witness :
    (redirectURL (newRequest (str "a:b:c") (str "/path") [] [])
        ⟨str "example.org", str "via", false⟩).Host = str ".example.org" ∧
    (redirectURL (newRequest (str "[::1]") (str "/path") [] [])
        ⟨str "example.org", str "via", false⟩).Host = str ".example.org" :=
  ⟨redirectURL_host_split_error _ _ (by decide) (by decide) (by decide),
    redirectURL_host_split_error _ _ (by decide) (by decide) (by decide)⟩

/-- C19: for a non-empty Host and a non-empty targetHost the output host is
`p` + `.` + targetHost, where `p` is a contiguous part of the Host, possibly
empty, and holds no `.`. -/
theorem redirectURL_host_shape (req : http.Request) (options : redirectOptions)
    (hH : req.Host ≠ []) (hT : options.TargetHost ≠ []) :
    ∃ p, (redirectURL req options).Host = p ++ str "." ++ options.TargetHost ∧
      p <:+: req.Host ∧ ch '.' ∉ p := by
  obtain ⟨p, hp, hcase⟩ := redirectURL_leaf_cases req options hH hT
  have hin : p <:+: specFirstLabel req.Host := by
    rcases hcase with ⟨h, _⟩ | ⟨h, _⟩
    · rw [h]
    · rw [h]; exact SplitHostPort_host_contained _
  exact ⟨p, hp, hin.trans (specFirstLabel_contained _),
    fun hm => specFirstLabel_no_dot _ (hin.subset hm)⟩

/-- C19, witness: the Host `localhost:8080` gives `localhost` + `.` +
`example.org`, and `[::1]:80` gives `::1` + `.` + `example.org`. -/
theorem redirectURL_host_shape_witness :
    (∃ p, (redirectURL (newRequest (str "localhost:8080") (str "/path") [] [])
        ⟨str "example.org", str "via", false⟩).Host = p ++ str "." ++ str "example.org" ∧
      p <:+: str "localhost:8080" ∧ ch '.' ∉ p) ∧
    (redirectURL (newRequest (str "localhost:8080") (str "/path") [] [])
        ⟨str "example.org", str "via", false⟩).Host = str "localhost.example.org" ∧
    (redirectURL (newRequest (str "[::1]:80") (str "/path") [] [])
        ⟨str "example.org", str "via", false⟩).Host = str "::1.example.org" :=
  ⟨redirectURL_host_shape _ _ (by decide) (by decide), by decide, by decide⟩

/-- C20: for a non-empty targetHost and a non-empty Host that does not start
with `[`, rewriting the output host once more gives the same host. -/
theorem redirectURL_host_idempotent (req req1 : http.Request) (options : redirectOptions)
    (hH : req.Host ≠ []) (hT : options.TargetHost ≠ [])
    (hbr : req.Host.head? ≠ some (ch '['))
    (h1 : req1.Host = (redirectURL req options).Host) :
    (redirectURL req1 options).Host = (redirectURL req options).Host := by
  obtain ⟨p, hp, hcase⟩ := redirectURL_leaf_cases req options hH hT
  have hin : p <:+: specFirstLabel req.Host := by
    rcases hcase with ⟨h, _⟩ | ⟨h, _⟩
    · rw [h]
    · rw [h]; exact SplitHostPort_host_contained _
  have hdot : ch '.' ∉ p := fun hm => specFirstLabel_no_dot _ (hin.subset hm)
  have hcolon : ch ':' ∉ p := by
    rcases hcase with ⟨h, hn⟩ | ⟨h, _⟩
    · rw [h]; exact hn
    · rw [h]; exact SplitHostPort_host_no_colon _ (specFirstLabel_head _ hbr)
  have hHost1 : req1.Host = p ++ ch '.' :: options.TargetHost := by
    rw [h1, hp]; simp [str, ch]
  have hH1 : req1.Host ≠ [] := by rw [hHost1]; simp
  have hidx : ¬ strings.IndexByte p (ch ':') ≥ 0 :=
    fun h => hcolon ((IndexByte_nonneg_iff _ _).mp h)
  rw [redirectURL_host_eq req1 options hH1 hT, hHost1, specFirstLabel_append _ _ hdot, hp]
  simp only [hidx, if_false]

/-- C20, witness: the Host `localhost:8080` gives `localhost.example.org`,
and the Host `localhost.example.org` gives `localhost.example.org`. -/
theorem redirectURL_host_idempotent_witness :
    (redirectURL (newRequest (str "localhost:8080") (str "/path") [] [])
        ⟨str "example.org", str "via", false⟩).Host = str "localhost.example.org" ∧
    (redirectURL (newRequest (str "localhost.example.org") (str "/path") [] [])
        ⟨str "example.org", str "via", false⟩).Host = str "localhost.example.org" :=
  ⟨by decide,
    (redirectURL_host_idempotent (newRequest (str "localhost:8080") (str "/path") [] []) _ _
      (by decide) (by decide) (by decide) (by decide)).trans (by decide)⟩

/-- With a leading `[` the rewriting need not be idempotent: the Host
`[::1]:80` gives `::1.example.org`, and that Host gives `.example.org`. -/
theorem redirectURL_host_bracket_not_idempotent :
    (redirectURL (newRequest (str "[::1]:80") (str "/path") [] [])
        ⟨str "example.org", str "via", false⟩).Host = str "::1.example.org" ∧
    (redirectURL (newRequest (str "::1.example.org") (str "/path") [] [])
        ⟨str "example.org", str "via", false⟩).Host = str ".example.org" := by
  decide

/-! ## The output host and the leaf of the specification -/

theorem LastIndexByte_pos (s : GoString) (c : UInt8) (hm : c ∈ s) (hh : s.head? ≠ some c) :
    1 ≤ strings.LastIndexByte s c := by
  obtain ⟨a, b, hab, hb⟩ := exists_last_split s c hm
  rw [hab, LastIndexByte_append_sep a b c hb]
  cases a with
  | nil => rw [hab] at hh; simp at hh
  | cons x a => simp

/-- With a leading `[`, the host that `net.SplitHostPort` returns is shorter
than the text before the last colon. -/
theorem SplitHostPort_bracket_short (s : GoString) (hm : ch ':' ∈ s)
    (h : s.head? = some (ch '[')) :
    (net.SplitHostPort s).1.length < (strings.LastIndexByte s (ch ':')).toNat := by
  have hne : s.head? ≠ some (ch ':') := by rw [h]; decide
  have hi := LastIndexByte_pos s _ hm hne
  simp only [net.SplitHostPort, net.splitHostPortTail, h, if_true]
  split_ifs with h1 h2 h3 h4 h5 h6 <;> try (simp only [List.length_nil]; omega)
  simp only [slice, List.length_take, List.length_drop]
  omega

/-- Without a leading `[`, a text with `[` or `]` makes `net.SplitHostPort`
return the empty host. -/
theorem SplitHostPort_stray_bracket (s : GoString) (h : s.head? ≠ some (ch '['))
    (hb : ch '[' ∈ s ∨ ch ']' ∈ s) : (net.SplitHostPort s).1 = [] := by
  have e : sliceFrom s 0 = s := by simp [sliceFrom]
  simp only [net.SplitHostPort, net.splitHostPortTail, h, if_false, e, IndexByte_nonneg_iff,
    ge_iff_le]
  split_ifs <;> first | rfl | (exfalso; tauto)

/-- When the text holds a colon, `net.SplitHostPort` returns the text before
the last colon exactly when that colon is the only one and the text holds no
bracket or begins with the colon. -/
theorem SplitHostPort_host_eq_take_iff (s : GoString) (hm : ch ':' ∈ s) :
    (net.SplitHostPort s).1 = s.take (strings.LastIndexByte s (ch ':')).toNat ↔
      s.count (ch ':') = 1 ∧ ((ch '[' ∉ s ∧ ch ']' ∉ s) ∨ s.head? = some (ch ':')) := by
  by_cases hh : s.head? = some (ch '[')
  · have hshort := SplitHostPort_bracket_short s hm hh
    have hlen : (strings.LastIndexByte s (ch ':')).toNat ≤ s.length := by
      obtain ⟨a, b, hab, hb⟩ := exists_last_split s _ hm
      rw [hab, LastIndexByte_append_sep a b _ hb]
      simp
    constructor
    · intro e
      rw [e, List.length_take] at hshort
      omega
    · rintro ⟨_, h | h⟩
      · exact absurd (List.mem_of_mem_head? hh) h.1
      · rw [hh] at h; exact absurd h (by decide)
  · obtain ⟨a, b, hab, hb⟩ := exists_last_split s _ hm
    have htake : s.take (strings.LastIndexByte s (ch ':')).toNat = a := by
      rw [hab, LastIndexByte_append_sep a b _ hb]
      simp
    have hcount : s.count (ch ':') = a.count (ch ':') + 1 := by
      rw [hab]
      simp [List.count_append, List.count_eq_zero.mpr hb]
    rw [htake, hcount]
    by_cases ha : ch ':' ∈ a
    · have h2 : 2 ≤ s.count (ch ':') := by
        have := List.count_pos_iff.mpr ha
        omega
      have herr := SplitHostPort_too_many_colons s hh h2
      have hnil := SplitHostPort_error_host s (by rw [herr]; simp)
      have hpos := List.count_pos_iff.mpr ha
      constructor
      · intro e
        rw [hnil] at e
        rw [← e] at ha
        exact absurd ha (List.not_mem_nil _)
      · rintro ⟨h1, _⟩
        omega
    · have hzero : a.count (ch ':') = 0 := List.count_eq_zero.mpr ha
      have hhead : s.head? = some (ch ':') ↔ a = [] := by
        rw [hab]
        cases a with
        | nil => simp
        | cons x a =>
          simp only [List.cons_append, List.head?_cons, Option.some.injEq, reduceCtorEq,
            iff_false]
          intro hx
          exact ha (hx ▸ List.mem_cons_self _ _)
      by_cases hb2 : ch '[' ∈ s ∨ ch ']' ∈ s
      · rw [SplitHostPort_stray_bracket s hh hb2, hhead, hzero]
        constructor
        · intro e; exact ⟨rfl, Or.inr e.symm⟩
        · rintro ⟨_, h | h⟩
          · exact absurd hb2 (by tauto)
          · exact h.symm
      · have hnb : ch '[' ∉ s ∧ ch ']' ∉ s := by tauto
        have hsp : net.SplitHostPort s = (a, b, none) := by
          rw [hab]
          exact SplitHostPort_host_port a b ha hb (hab ▸ hnb.1) (hab ▸ hnb.2)
        rw [hsp, hzero]
        exact ⟨fun _ => ⟨rfl, Or.inl hnb⟩, fun _ => rfl⟩

/-- C1, as amended: for a non-empty request Host and a non-empty targetHost,
the output host is `leaf(Host) + "." + targetHost`, where the leaf is the
text before the first `.` (the whole Host when there is none) without its
trailing `:port`, exactly when that text holds no `:`, or holds one `:` only
and either holds neither `[` nor `]` or begins with the `:`. -/
theorem redirectURL_host_leaf (req : http.Request) (options : redirectOptions)
    (hH : req.Host ≠ []) (hT : options.TargetHost ≠ []) :
    (redirectURL req options).Host = specLeaf req.Host ++ str "." ++ options.TargetHost ↔
      (ch ':' ∉ specFirstLabel req.Host ∨
        ((specFirstLabel req.Host).count (ch ':') = 1 ∧
          ((ch '[' ∉ specFirstLabel req.Host ∧ ch ']' ∉ specFirstLabel req.Host) ∨
            (specFirstLabel req.Host).head? = some (ch ':')))) := by
  rw [redirectURL_host_eq req options hH hT]
  by_cases hm : ch ':' ∈ specFirstLabel req.Host
  · have hidx : strings.IndexByte (specFirstLabel req.Host) (ch ':') ≥ 0 :=
      (IndexByte_nonneg_iff _ _).mpr hm
    simp only [specLeaf, hm, hidx, if_true, not_true_eq_false, false_or]
    rw [List.append_left_inj, List.append_left_inj]
    exact SplitHostPort_host_eq_take_iff _ hm
  · have hidx : ¬ strings.IndexByte (specFirstLabel req.Host) (ch ':') ≥ 0 :=
      fun h => hm ((IndexByte_nonneg_iff _ _).mp h)
    simp only [specLeaf, hm, hidx, if_false, not_false_eq_true, true_or]

/-- C1, witnesses: Host `test.example.com` gives `test.example.org`, Host
`localhost:8080` gives `localhost.example.org`, Host `[abc].example.com`
gives `[abc].example.org`; for the Host `[a]:80` the output host is not the
one with the leaf `[a]`. -/
theorem redirectURL_host_leaf_witness :
    (redirectURL (newRequest (str "test.example.com") (str "/path") [] [])
        ⟨str "example.org", [], false⟩).Host = str "test.example.org" ∧
    (redirectURL (newRequest (str "localhost:8080") (str "/path") [] [])
        ⟨str "example.org", str "via", false⟩).Host = str "localhost.example.org" ∧
    (redirectURL (newRequest (str "[abc].example.com") (str "/path") [] [])
        ⟨str "example.org", str "via", false⟩).Host = str "[abc].example.org" ∧
    (redirectURL (newRequest (str "[a]:80") (str "/path") [] [])
        ⟨str "example.org", str "via", false⟩).Host ≠
      specLeaf (str "[a]:80") ++ str "." ++ str "example.org" := by
  refine ⟨?_, ?_, ?_, ?_⟩
  · rw [(redirectURL_host_leaf _ _ (by decide) (by decide)).mpr (by decide)]
    decide
  · rw [(redirectURL_host_leaf _ _ (by decide) (by decide)).mpr (by decide)]
    decide
  · rw [(redirectURL_host_leaf _ _ (by decide) (by decide)).mpr (by decide)]
    decide
  · exact fun h => absurd ((redirectURL_host_leaf (newRequest (str "[a]:80") (str "/path") [] [])
      ⟨str "example.org", str "via", false⟩ (by decide) (by decide)).mp h) (by decide)

/-- C1, as stated, fails: for the Host `a:b:c` the text before the first `.`
contains `:`, and removing everything from the last `:` on leaves `a:b`; the
code returns the host `.example.org`, with an empty leaf. -/
theorem redirectURL_host_leaf_counterexample :
    (newRequest (str "a:b:c") (str "/path") [] []).Host ≠ [] ∧
    (redirectURL (newRequest (str "a:b:c") (str "/path") [] [])
        ⟨str "example.org", [], false⟩).Host = str ".example.org" ∧
    specLeaf (str "a:b:c") ++ str "." ++ str "example.org" = str "a:b.example.org" ∧
    (redirectURL (newRequest (str "a:b:c") (str "/path") [] [])
        ⟨str "example.org", [], false⟩).Host ≠
      specLeaf (str "a:b:c") ++ str "." ++ str "example.org" := by
  decide

end WildcardRedirect
